import Mathlib

/-!
Verification of the core behavior module of the wollok-ts interpreter
toolkit (src/behavior.ts) against its natural-language specification.

The file is organised in two parts: first the shallow embedding of the
data model and the operations the claims mention (each definition is
translated from the source function it names), then the helper lemmas
and the claim theorems.

Modelling conventions, stated once:
- JavaScript arrays are Lean lists in the same order (index 0 first);
  the operand stack and the frame stack therefore have their top at the
  END of the list, as in the source, where push/pop/last act on the end.
- JavaScript object maps are association lists in insertion order.
- Fallible operations (code paths that throw) return Except/Option.
- The helpers divideOn, last and mapObject and the constants
  DECIMAL_PRECISION and Interruption come from modules of the
  repository that are not part of the given sources (extensions.ts,
  interpreter.ts); where they are needed they are modelled from the
  spec and marked as such.
-/

deriving instance DecidableEq for Except

-- ════════════════════════════════════════════════════════════════════
-- Part 1a. Stage-generic tree model: children, descendants, transform,
-- reduce (behavior.ts, Raw section).  A node is a tagged record with a
-- kind tag, one primitive attribute and one node-list attribute; the
-- source walks the attribute values generically, which on this schema
-- yields exactly the child list.
-- ════════════════════════════════════════════════════════════════════

inductive TNode where
  | mk (kind : String) (val : Nat) (children : List TNode)

def TNode.kind : TNode → String
  | .mk k _ _ => k

def TNode.val : TNode → Nat
  | .mk _ v _ => v

/-- Models children(): the node-valued attribute contents in attribute
order (the cache wrapper is behaviourally transparent and is omitted). -/
def TNode.children : TNode → List TNode
  | .mk _ _ cs => cs

/-- Models is(kindOrCategory) from the Raw behaviour. -/
def TNode.is (t : TNode) (kind : String) : Bool :=
  if kind == "Entity" then
    ["Package", "Class", "Singleton", "Mixin", "Program", "Describe", "Test"].contains t.kind
  else if kind == "Module" then ["Singleton", "Mixin", "Class"].contains t.kind
  else if kind == "Expression" then
    ["Reference", "Self", "Literal", "Send", "Super", "New", "If", "Throw", "Try"].contains t.kind
  else if kind == "Sentence" then ["Variable", "Return", "Assignment"].contains t.kind
  else t.kind == kind

mutual
/-- Subtree node count; measure for the traversal loops and the value
the claim about reduce is compared with. -/
def TNode.size : TNode → Nat
  | .mk _ _ cs => 1 + TNode.sizeL cs
def TNode.sizeL : List TNode → Nat
  | [] => 0
  | c :: rest => TNode.size c + TNode.sizeL rest
end

/-- Models the descendants(kind?) loop: a breadth-first queue. `next` is
the node being expanded, `pending` the queue; each step collects the
(optionally filtered) children, enqueues them and shifts the queue. -/
def TNode.descendantsLoop (filterKind : Option String) (next : TNode) (pending : List TNode) :
    List TNode :=
  let cs := next.children
  (match filterKind with
    | some k => cs.filter (fun c => c.is k)
    | none => cs) ++
  (match h : pending ++ cs with
    | [] => []
    | n :: rest => TNode.descendantsLoop filterKind n rest)
termination_by TNode.size next + TNode.sizeL pending
decreasing_by
  have hsum : ∀ (l r : List TNode), TNode.sizeL (l ++ r) = TNode.sizeL l + TNode.sizeL r := by
    intro l r
    induction l with
    | nil => simp [TNode.sizeL]
    | cons p ps ih => rw [List.cons_append, TNode.sizeL, TNode.sizeL, ih]; omega
  have hsz : TNode.size next = 1 + TNode.sizeL next.children := by
    cases next with
    | mk k v cs => simp [TNode.size, TNode.children]
  have h2 : TNode.size n + TNode.sizeL rest = TNode.sizeL (pending ++ next.children) := by
    rw [h]; simp [TNode.sizeL]
  rw [hsum] at h2
  omega

/-- Models descendants(kind?); the optional kind filter is an explicit
Option argument. -/
def TNode.descendants (filterKind : Option String) (t : TNode) : List TNode :=
  TNode.descendantsLoop filterKind t []

mutual
/-- Models transform(tx) for the kind-to-function mapping form of tx:
the children of the original node are rewritten first, then the
function registered for the original node's kind (or the identity) is
applied to the node with the rewritten children. -/
def TNode.transformByKind (txm : String → Option (TNode → TNode)) : TNode → TNode
  | .mk k v cs =>
    (match txm k with
      | some f => f
      | none => fun n => n)
    (.mk k v (TNode.transformByKindL txm cs))
def TNode.transformByKindL (txm : String → Option (TNode → TNode)) : List TNode → List TNode
  | [] => []
  | c :: rest => TNode.transformByKind txm c :: TNode.transformByKindL txm rest
end

/-- Models transform(tx) for the single-function form of tx: tx is
applied to the node first, and the children OF ITS RESULT are then
rewritten recursively.  Because tx may grow the tree, the source
recursion need not terminate; the fuel argument models that (none is
returned only when the fuel runs out, which on terminating inputs never
happens for a large enough fuel). -/
def TNode.transformFun (tx : TNode → TNode) : Nat → TNode → Option TNode
  | 0, _ => none
  | fuel + 1, t =>
    match tx t with
    | .mk k v cs => (cs.mapM (TNode.transformFun tx fuel)).map (fun cs' => .mk k v cs')

mutual
/-- Modelled from the spec (comparison definition for the transform
claim): a bottom-up rewrite with a single function, "a node is
rewritten AFTER its children have been rewritten": the children of the
ORIGINAL node are rewritten first and tx is applied to the node built
from the rewritten children. -/
def TNode.specBottomUpFun (tx : TNode → TNode) : TNode → TNode
  | .mk k v cs => tx (.mk k v (TNode.specBottomUpFunL tx cs))
def TNode.specBottomUpFunL (tx : TNode → TNode) : List TNode → List TNode
  | [] => []
  | c :: rest => TNode.specBottomUpFun tx c :: TNode.specBottomUpFunL tx rest
end

mutual
/-- Modelled from the spec (comparison definition for the transform
claim): the bottom-up rewrite with a kind-to-function mapping, written
from the spec's words independently of transformByKind. -/
def TNode.specBottomUpByKind (txm : String → Option (TNode → TNode)) : TNode → TNode
  | .mk k v cs =>
    ((txm k).getD (fun n => n)) (.mk k v (TNode.specBottomUpByKindL txm cs))
def TNode.specBottomUpByKindL (txm : String → Option (TNode → TNode)) : List TNode → List TNode
  | [] => []
  | c :: rest => TNode.specBottomUpByKind txm c :: TNode.specBottomUpByKindL txm rest
end

mutual
/-- Models reduce(tx, initial): tx is applied to the accumulator and the
node itself first, then the result is threaded through the children
left to right (children().reduce((acum, child) => child.reduce(tx, acum), tx(initial, this))). -/
def TNode.reduce {T : Type} (tx : T → TNode → T) : T → TNode → T
  | initial, .mk k v cs => TNode.reduceL tx (tx initial (.mk k v cs)) cs
def TNode.reduceL {T : Type} (tx : T → TNode → T) : T → List TNode → T
  | acum, [] => acum
  | acum, c :: rest => TNode.reduceL tx (TNode.reduce tx acum c) rest
end

/-- The counting fold of the reduce claim: reduce((a, _) => a + 1, 0). -/
def TNode.reduceCount (t : TNode) : Nat :=
  TNode.reduce (fun a _ => a + 1) 0 t

/-- Concrete transform argument used to separate the two recursion
orders: it rewrites a node's value from the values its children have AT
THE TIME tx is applied. -/
def txSumChildren : TNode → TNode
  | .mk k _ cs => .mk k ((cs.map TNode.val).sum + 1) cs

/-- A two-node tree (a parent with a single leaf child). -/
def tParentLeaf : TNode := .mk "P" 0 [.mk "L" 0 []]

/-- A single leaf node, counterexample input for the reduce claim. -/
def tLeaf : TNode := .mk "X" 0 []

-- ════════════════════════════════════════════════════════════════════
-- Part 1b. Linked modules: hierarchy linearisation and method lookup
-- (behavior.ts, Linked section).  References (mixins, superclass) are
-- modelled by the id of their target; resolving a reference is a
-- lookup in the environment's module list.
-- ════════════════════════════════════════════════════════════════════

inductive MKind where
  | classKind
  | singletonKind
  | mixinKind
deriving DecidableEq, Repr

structure Param where
  name : String
  isVarArg : Bool
deriving DecidableEq, Repr

structure MethodNode where
  name : String
  parameters : List Param
  hasBody : Bool
  isNative : Bool
deriving DecidableEq, Repr

inductive Member where
  | method (m : MethodNode)
  | field (name : String)
  | ctor (parameters : List Param)
deriving DecidableEq, Repr

structure ModuleNode where
  id : Nat
  kind : MKind
  mixins : List Nat
  superclass : Option Nat
  members : List Member
deriving DecidableEq, Repr

/-- Resolution of a module reference by target id (the target() of a
mixin or superclass Reference in a linked environment). -/
def lookupMod (env : List ModuleNode) (mid : Nat) : Option ModuleNode :=
  env.find? (fun m => m.id == mid)

/-- The parent references hierarchyExcluding folds over: each mixin in
declared order, then (unless the module is a Mixin) the superclass
module when there is one. -/
def parentRefs (m : ModuleNode) : List Nat :=
  m.mixins ++ (if m.kind == MKind.mixinKind then [] else m.superclass.toList)

/-- Models hierarchyExcluding(module, exclude): if the module's id is
excluded the result is empty; otherwise fold over the parents with
accumulator (mods, exs) starting at ([module], module.id :: exclude),
appending the recursive result for each parent and prepending the
parent's id to exs afterwards.  The source recursion terminates because
every recursive call excludes one more module of the environment; the
fuel argument (everywhere instantiated with env.length + 1, which the
stability lemma below shows is enough) makes that explicit.  A parent
reference that does not resolve is skipped (the source would throw
while computing the parents). -/
def hierFuel (env : List ModuleNode) : Nat → Nat → List Nat → List ModuleNode
  | 0, _, _ => []
  | fuel + 1, mid, exclude =>
    if mid ∈ exclude then []
    else
      match lookupMod env mid with
      | none => []
      | some m =>
        ((parentRefs m).foldl
          (fun acc pid => (acc.1 ++ hierFuel env fuel pid acc.2, pid :: acc.2))
          ([m], mid :: exclude)).1

/-- Models Module.hierarchy(): hierarchyExcluding(this) with an empty
exclusion list, unrolled once so that the module object itself (rather
than a lookup of its id) heads the fold, exactly as in the source. -/
def ModuleNode.hierarchy (env : List ModuleNode) (m : ModuleNode) : List ModuleNode :=
  ((parentRefs m).foldl
    (fun acc pid => (acc.1 ++ hierFuel env (env.length + 1) pid acc.2, pid :: acc.2))
    ([m], [m.id])).1

/-- Straight-line form of the parents fold of hierFuel: the
concatenation of the recursive results, threading the growing
exclusion list; used by the lemmas about hierFuel. -/
def hierConc (env : List ModuleNode) (fuel : Nat) : List Nat → List Nat → List ModuleNode
  | [], _ => []
  | pid :: rest, exs => hierFuel env fuel pid exs ++ hierConc env fuel rest (pid :: exs)

/-- Models Module.inherits(other). -/
def ModuleNode.inherits (env : List ModuleNode) (m other : ModuleNode) : Bool :=
  (m.hierarchy env).any (fun x => other.id == x.id)

/-- Models Module.methods(): the members of kind Method. -/
def ModuleNode.methods (m : ModuleNode) : List MethodNode :=
  m.members.filterMap (fun mem =>
    match mem with
    | .method mm => some mm
    | _ => none)

/-- The arity-match predicate of lookupMethod and lookupConstructor:
(some parameter is varargs AND n - 1 <= arity) OR n == arity.  In the
source n - 1 is computed in JavaScript number arithmetic; with n = 0
both -1 <= arity there and the truncated 0 - 1 = 0 <= arity here hold
vacuously, so Nat subtraction is faithful. -/
def matchesArity (parameters : List Param) (arity : Nat) : Bool :=
  (parameters.any (fun p => p.isVarArg) && decide (parameters.length - 1 ≤ arity)) ||
    parameters.length == arity

/-- The whole per-method predicate of lookupMethod: has a body or is
native, has the requested name, and matches the arity. -/
def methodMatches (mm : MethodNode) (name : String) (arity : Nat) : Bool :=
  (mm.hasBody || mm.isNative) && mm.name == name && matchesArity mm.parameters arity

/-- Models Module.lookupMethod(name, arity): walk the hierarchy in
order and return the first matching method. -/
def ModuleNode.lookupMethod (env : List ModuleNode) (m : ModuleNode) (name : String) (arity : Nat) :
    Option MethodNode :=
  (m.hierarchy env).findSome? (fun module => module.methods.find? (fun mem => methodMatches mem name arity))

/-- Counterexample environment for the hierarchy-distinctness claim: a
diamond through two sibling mixins.  C (id 0) mixes M1 (id 1) and
M2 (id 2); each of M1 and M2 mixes M3 (id 3). -/
def mixinDiamondC : ModuleNode :=
  { id := 0, kind := .classKind, mixins := [1, 2], superclass := none, members := [] }

def mixinDiamondEnv : List ModuleNode :=
  [mixinDiamondC,
   { id := 1, kind := .mixinKind, mixins := [3], superclass := none, members := [] },
   { id := 2, kind := .mixinKind, mixins := [3], superclass := none, members := [] },
   { id := 3, kind := .mixinKind, mixins := [], superclass := none, members := [] }]

/-- The foo(a, *b) method of the lookup scenario. -/
def fooMethod : MethodNode :=
  { name := "foo",
    parameters := [{ name := "a", isVarArg := false }, { name := "b", isVarArg := true }],
    hasBody := true,
    isNative := false }

/-- The module declaring foo(a, *b) for the lookup scenario. -/
def fooModule : ModuleNode :=
  { id := 1, kind := .classKind, mixins := [], superclass := none,
    members := [.method fooMethod] }

def fooEnv : List ModuleNode := [fooModule]

-- ════════════════════════════════════════════════════════════════════
-- Part 1c. Runtime state: Evaluation, Frame, instance creation and
-- interruption unwinding (behavior.ts, Runtime section).
-- ════════════════════════════════════════════════════════════════════

/-- Primitive JavaScript values an innerValue can hold in the scenarios
of the claims (numbers as rationals, strings, null; an absent value is
Option.none, standing for undefined). -/
inductive JsVal where
  | num (q : ℚ)
  | str (s : String)
  | jsNull
deriving DecidableEq

/-- JavaScript truthiness of an innerValue: undefined, null, 0 and the
empty string are falsy. -/
def jsTruthy : Option JsVal → Bool
  | none => false
  | some .jsNull => false
  | some (.num q) => !(decide (q = 0))
  | some (.str s) => !(s == "")

/-- How an innerValue renders inside a template literal: undefined and
null by name, strings as themselves, integral numbers in decimal (the
claims never render a non-integral number; the placeholder keeps the
function total). -/
def jsDisplay : Option JsVal → String
  | none => "undefined"
  | some .jsNull => "null"
  | some (.str s) => s
  | some (.num q) => if q.den == 1 then toString q.num else toString q.num ++ "/" ++ toString q.den

/-- Models RuntimeObject: { id, module, fields, innerValue }. -/
structure RObj where
  id : String
  module : String
  fields : List (String × String)
  innerValue : Option JsVal
deriving DecidableEq

/-- Models Frame: locals, operand stack (top at the end) and resume
set. The Interruption type lives in the interpreter module outside the
given sources; modelled from the spec as a name, "the set of
interruption kinds is fixed; exception is one of them". -/
structure Frame where
  locals : List (String × String)
  operandStack : List String
  resume : List String
deriving DecidableEq

/-- Models Frame.pushOperand(id). -/
def Frame.pushOperand (f : Frame) (id : String) : Frame :=
  { f with operandStack := f.operandStack ++ [id] }

/-- Models Frame.popOperand(): the top of the operand stack, or a
RangeError on an empty (or, faithfully to the falsy check, an
empty-string-topped) stack. -/
def Frame.popOperand (f : Frame) : Except String (String × Frame) :=
  match f.operandStack.getLast? with
  | none => .error "Popped empty operand stack"
  | some response =>
    if response == "" then .error "Popped empty operand stack"
    else .ok (response, { f with operandStack := f.operandStack.dropLast })

/-- Models Evaluation: frame stack (top at the end), instance table in
insertion order, and a counter standing for the uuid collaborator.
The uuid source is outside the given sources; modelled from the spec:
"any source of opaque ids that are globally unique ... and do not
collide with the N!/S! interning prefixes". -/
structure Evaluation where
  frameStack : List Frame
  instances : List (String × RObj)
  nextUuid : Nat
deriving DecidableEq

/-- Association-list read, first binding wins (JavaScript property
lookup on the modelled object map). -/
def lookupAssoc {β : Type} (l : List (String × β)) (k : String) : Option β :=
  (l.find? (fun p => p.1 == k)).map (fun p => p.2)

/-- Models instances[id] = obj: overwrite the binding in place when the
key exists, append it otherwise. -/
def Evaluation.setInstance (ev : Evaluation) (id : String) (obj : RObj) : Evaluation :=
  { ev with
    instances :=
      if ev.instances.any (fun p => p.1 == id) then
        ev.instances.map (fun p => if p.1 == id then (id, obj) else p)
      else ev.instances ++ [(id, obj)] }

/-- Models Evaluation.currentFrame(): last(frameStack). -/
def Evaluation.currentFrame (ev : Evaluation) : Option Frame :=
  ev.frameStack.getLast?

/-- Models Evaluation.instance(id), which throws a RangeError when the
id is unbound. -/
def Evaluation.getInstance (ev : Evaluation) (id : String) : Except String RObj :=
  match lookupAssoc ev.instances id with
  | some response => .ok response
  | none => .error ("Access to undefined instance \"" ++ id ++ "\"")

/-- Modelled from the spec: DECIMAL_PRECISION is defined in the
interpreter module outside the given sources; the spec's interning
scenario fixes it at 5. -/
def DECIMAL_PRECISION : Nat := 5

/-- Round-half-up of q * 10 ^ p as an integer, computed from the
numerator and denominator only:
floor(q * 10 ^ p + 1 / 2) = fdiv (2 * num * 10 ^ p + den) (2 * den). -/
def ratScaledRound (p : Nat) (q : ℚ) : Int :=
  Int.fdiv (2 * (q.num * (10 : Int) ^ p) + (q.den : Int)) (2 * (q.den : Int))

/-- Zero-pad a digit string on the left to p characters. -/
def padZeros (p : Nat) (s : String) : String :=
  String.mk (List.replicate (p - s.length) '0') ++ s

/-- JavaScript Number.prototype.toFixed(p) on a non-negative rational:
round half up at p decimals and print with exactly p fraction digits. -/
def toFixedPos (p : Nat) (q : ℚ) : String :=
  let m := (ratScaledRound p q).toNat
  if p == 0 then toString m
  else toString (m / 10 ^ p) ++ "." ++ padZeros p (toString (m % 10 ^ p))

/-- JavaScript toFixed(p): negative numbers are formatted as the sign
followed by toFixed of the absolute value (ties therefore round away
from zero, as in the ECMAScript algorithm). -/
def toFixedAt (p : Nat) (q : ℚ) : String :=
  if q < 0 then "-" ++ toFixedPos p (-q) else toFixedPos p q

/-- Numeric value of a digit list. -/
def digitsVal (l : List Char) : Nat :=
  l.foldl (fun a c => a * 10 + (c.toNat - '0'.toNat)) 0

/-- Value of a toFixed output without sign: integer digits, a dot,
fraction digits; the value is ip + fp / 10 ^ |fp|, written as a single
fraction. -/
def parseFixedPos (l : List Char) : ℚ :=
  let ip := l.takeWhile (fun c => !(c == '.'))
  let fp := (l.dropWhile (fun c => !(c == '.'))).drop 1
  mkRat (Int.ofNat (digitsVal ip * 10 ^ fp.length + digitsVal fp)) (10 ^ fp.length)

/-- Models Number(stringValue) on the strings toFixed produces. -/
def parseFixed (s : String) : ℚ :=
  match s.toList with
  | '-' :: rest => -(parseFixedPos rest)
  | l => parseFixedPos l

/-- Models Evaluation.createInstance(module, baseInnerValue): Numbers
are interned by their toFixed(DECIMAL_PRECISION) form under an N!
id and store the re-parsed rounded value; Strings are interned under
an S! id; any other module mints a fresh uuid.  The instances entry
{ id, module, fields: {}, innerValue } is then written. -/
def Evaluation.createInstance (ev : Evaluation) (module : String) (baseInnerValue : Option JsVal) :
    Except String (String × Evaluation) :=
  if module == "wollok.lang.Number" then
    match baseInnerValue with
    | some (.num q) =>
      let stringValue := toFixedAt DECIMAL_PRECISION q
      let id := "N!" ++ stringValue
      .ok (id, ev.setInstance id
        { id := id, module := module, fields := [], innerValue := some (.num (parseFixed stringValue)) })
    | _ => .error "TypeError: toFixed applied to a non-number innerValue"
  else if module == "wollok.lang.String" then
    let id := "S!" ++ jsDisplay baseInnerValue
    .ok (id, ev.setInstance id
      { id := id, module := module, fields := [], innerValue := baseInnerValue })
  else
    let id := "U!" ++ toString ev.nextUuid
    .ok (id,
      { ev.setInstance id { id := id, module := module, fields := [], innerValue := baseInnerValue } with
        nextUuid := ev.nextUuid + 1 })

/-- The do-while loop of interrupt, on the reversed (top-first) view of
the frame stack: pop the top frame, then keep popping while the new top
cannot resume the interruption.  The frame stack itself is stored
bottom-first as in the source; interruptLoop below reverses around this
loop. -/
def interruptLoopRev (interruption : String) : List Frame → List Frame
  | [] => []
  | _ :: rest =>
    match rest with
    | [] => []
    | f :: _ => if f.resume.contains interruption then rest else interruptLoopRev interruption rest

/-- The frame stack after the unwinding loop of interrupt. -/
def interruptLoop (interruption : String) (frameStack : List Frame) : List Frame :=
  (interruptLoopRev interruption frameStack.reverse).reverse

/-- The detail part of the unhandled-exception message:
value.fields.message && instance(value.fields.message).innerValue || value.innerValue,
rendered as in the template literal; reading the message instance can
itself fail with the undefined-instance RangeError. -/
def unhandledDetail (ev : Evaluation) (value : RObj) : Except String String :=
  match lookupAssoc value.fields "message" with
  | some mid =>
    if mid == "" then .ok (jsDisplay value.innerValue)
    else
      (ev.getInstance mid).map (fun mobj =>
        if jsTruthy mobj.innerValue then jsDisplay mobj.innerValue else jsDisplay value.innerValue)
  | none => .ok (jsDisplay value.innerValue)

/-- Models Evaluation.interrupt(interruption, valueId): pop frames
until a frame that can resume remains; if none does, fail with the
unhandled-interruption error (whose detail, for "exception", is the
module of the interrupted instance and an innerValue); otherwise remove
the interruption from that frame's resume list and push valueId on its
operand stack. -/
def Evaluation.interrupt (ev : Evaluation) (interruption : String) (valueId : String) :
    Except String Evaluation :=
  let fs := interruptLoop interruption ev.frameStack
  match fs.getLast? with
  | none => do
    let value ← ev.getInstance valueId
    let message ←
      if interruption == "exception" then
        (unhandledDetail ev value).map (fun d => value.module ++ ": " ++ d)
      else pure ""
    .error ("Unhandled \"" ++ interruption ++ "\" interruption: [" ++ valueId ++ "] " ++ message)
  | some f =>
    .ok { ev with
          frameStack := fs.dropLast ++
            [Frame.pushOperand
              { f with resume := f.resume.filter (fun elem => !(elem == interruption)) }
              valueId] }

/-- Modelled from the spec (comparison definition for the
interrupt-pops-top claim): the handler search as a plain while loop
that does NOT pre-pop, on the top-first view: keep the stack when its
top frame can already resume.  interrupt differs from it exactly by
discarding the top frame first. -/
def seekHandlerRev (interruption : String) : List Frame → List Frame
  | [] => []
  | f :: rest => if f.resume.contains interruption then f :: rest else seekHandlerRev interruption rest

-- ════════════════════════════════════════════════════════════════════
-- Part 1d. Entities, fully qualified names and FQN resolution
-- (behavior.ts, Linked section: fullyQualifiedName, getNodeByFQN,
-- Package.getNodeByQN, Environment.getNodeById).  Strings are lists of
-- characters so that the splitting helpers are plain list recursions.
-- An entity node records its kind, linked id, optional name, the id of
-- its superclass target (Singletons: superCall.superclass) and its
-- entity members; caches are behaviourally transparent and omitted.
-- ════════════════════════════════════════════════════════════════════

abbrev Str := List Char

/-- Everything before the first occurrence of c, and everything after
it, or none if c does not occur. -/
def splitFirst (c : Char) : Str → Option (Str × Str)
  | [] => none
  | x :: xs =>
    if x == c then some ([], xs)
    else (splitFirst c xs).map (fun p => (x :: p.1, p.2))

/-- Modelled from the spec: divideOn comes from the extensions module
outside the given sources; getNodeByFQN "splits on the first `.`",
and an absent separator leaves the whole input before it with an empty
remainder (both callers only test the remainder for emptiness). -/
def divideOn (c : Char) (s : Str) : Str × Str :=
  match splitFirst c s with
  | some p => p
  | none => (s, [])

/-- JavaScript String.prototype.split(c) for a single-character
separator. -/
def jsSplit (c : Char) : Str → List Str
  | [] => [[]]
  | x :: xs =>
    let r := jsSplit c xs
    if x == c then [] :: r
    else
      match r with
      | [] => [[x]]
      | h :: t => (x :: h) :: t

/-- JavaScript name.replace(/\.#/g, ''): drop every (non-overlapping,
left to right) occurrence of the two-character sequence ".#". -/
def stripDotHash : Str → Str
  | [] => []
  | '.' :: '#' :: rest => stripDotHash rest
  | x :: rest => x :: stripDotHash rest

/-- Dot-joined segments (proof-side helper relating the fully
qualified names the model produces to their segment lists). -/
def joinDot : List Str → Str
  | [] => []
  | [s] => s
  | s :: rest => s ++ '.' :: joinDot rest

inductive EKind where
  | pkg
  | cls
  | singleton
  | mixin
  | program
  | describe
  | test
deriving DecidableEq, Repr

inductive ENode where
  | mk (kind : EKind) (id : Str) (name : Option Str) (superRef : Option Str) (members : List ENode)

def ENode.kind : ENode → EKind
  | .mk k _ _ _ _ => k

def ENode.id : ENode → Str
  | .mk _ i _ _ _ => i

def ENode.name : ENode → Option Str
  | .mk _ _ n _ _ => n

def ENode.superRef : ENode → Option Str
  | .mk _ _ _ s _ => s

def ENode.members : ENode → List ENode
  | .mk _ _ _ _ ms => ms

mutual
/-- The nodes of a subtree in preorder (the traversal order of the
generic structural search getNodeById performs). -/
def subNodes : ENode → List ENode
  | .mk k i n s ms => .mk k i n s ms :: subNodesL ms
def subNodesL : List ENode → List ENode
  | [] => []
  | e :: rest => subNodes e ++ subNodesL rest
end

/-- All nodes of the environment in preorder. -/
def allNodes (env : List ENode) : List ENode :=
  subNodesL env

mutual
/-- Structural search for the node with a given id together with its
ancestor chain (innermost ancestor first); the chain is what parent()
recovers step by step through the parent cache.  Used to give the
fully qualified name of a superclass target. -/
def findChainN (tid : Str) (chain : List ENode) : ENode → Option (List ENode × ENode)
  | .mk k i n s ms =>
    if i == tid then some (chain, .mk k i n s ms)
    else findChainL tid (.mk k i n s ms :: chain) ms
def findChainL (tid : Str) (chain : List ENode) : List ENode → Option (List ENode × ENode)
  | [] => none
  | e :: rest =>
    match findChainN tid chain e with
    | some r => some r
    | none => findChainL tid chain rest
end

def findChain (env : List ENode) (tid : Str) : Option (List ENode × ENode) :=
  findChainL tid [] env

/-- The label of a node that is resolved as a superclass target (such
targets are named Classes, for which the general label below agrees
with this one). -/
def entLabelSimple : ENode → Str
  | .mk k _ (some nm) _ _ => if k == EKind.singleton then nm else stripDotHash nm
  | .mk _ _ none _ _ => []

/-- Models fullyQualifiedName for a node whose ancestor chain
(innermost first) is given: parent.is('Package') prefixes the parent's
fully qualified name and a dot to the label. -/
def fqnChainSimple : List ENode → ENode → Str
  | [], e => entLabelSimple e
  | p :: ps, e =>
    if p.kind == EKind.pkg then fqnChainSimple ps p ++ '.' :: entLabelSimple e
    else entLabelSimple e

/-- The fully qualified name of the superclass target with the given
id: resolve the target and compute its fully qualified name from its
ancestor chain. -/
def superFqnOf (env : List ENode) (sid : Str) : Str :=
  match findChain env sid with
  | some (ps, t) => fqnChainSimple ps t
  | none => []

/-- Models the label of fullyQualifiedName: a Singleton uses its name,
or <superclass fqn>#<id> when unnamed; every other entity uses its
name with ".#" occurrences stripped. -/
def entLabel (env : List ENode) (e : ENode) : Str :=
  match e.kind, e.name with
  | EKind.singleton, none =>
    (match e.superRef with
      | some sid => superFqnOf env sid
      | none => []) ++ '#' :: e.id
  | EKind.singleton, some nm => nm
  | _, some nm => stripDotHash nm
  | _, none => []

/-- Models Entity.fullyQualifiedName() for a node with the given
ancestor chain (innermost first). -/
def fullyQualifiedName (env : List ENode) : List ENode → ENode → Str
  | [], e => entLabel env e
  | p :: ps, e =>
    if p.kind == EKind.pkg then fullyQualifiedName env ps p ++ '.' :: entLabel env e
    else entLabel env e

/-- Every modelled member kind is an Entity kind, so the is('Entity')
test of getNodeByQN holds for all of them. -/
def isEntityNode (_ : ENode) : Bool := true

/-- One resolution step of getNodeByQN: the entity child with the
requested name. -/
def stepDown (p : ENode) (nm : Str) : Option ENode :=
  p.members.find? (fun c => isEntityNode c && c.name == some nm)

/-- The reduce of getNodeByQN over the dot segments. -/
def resolvePath : ENode → List Str → Option ENode
  | cur, [] => some cur
  | cur, s :: rest =>
    match stepDown cur s with
    | some nxt => resolvePath nxt rest
    | none => none

/-- Models Environment.getNodeById(id): the first node of the
structural search with the given id (none models the missing-node
error). -/
def getNodeById (env : List ENode) (id : Str) : Option ENode :=
  (allNodes env).find? (fun n => n.id == id)

/-- Models Package.getNodeByQN(qualifiedName): if the name has a part
after a '#', resolve it as an id; otherwise follow the dot segments
through entity children.  The receiver must be a Package for the
method to exist at all. -/
def getNodeByQN (env : List ENode) (p : ENode) (qn : Str) : Option ENode :=
  if p.kind == EKind.pkg then
    match (jsSplit '#' qn).get? 1 with
    | some id => if id.isEmpty then resolvePath p (jsSplit '.' qn) else getNodeById env id
    | none => resolvePath p (jsSplit '.' qn)
  else none

/-- Models Environment.getNodeByFQN(fullyQualifiedName): split on the
first dot, find the top-level child by name, and delegate a non-empty
remainder to getNodeByQN. -/
def getNodeByFQN (env : List ENode) (fqn : Str) : Option ENode :=
  let parts := divideOn '.' fqn
  match env.find? (fun c => c.name == some parts.1) with
  | none => none
  | some root => if parts.2.isEmpty then some root else getNodeByQN env root parts.2

/-- A node occurs in the environment under the given ancestor chain
(innermost ancestor first). -/
inductive ChainTo (env : List ENode) : List ENode → ENode → Prop where
  | top : ∀ {e : ENode}, e ∈ env → ChainTo env [] e
  | step : ∀ {ps : List ENode} {p e : ENode},
      ChainTo env ps p → e ∈ p.members → ChainTo env (p :: ps) e

/-- A usable name or id: non-empty and free of the separator
characters '.' and '#'. -/
def goodStr (s : Str) : Bool :=
  !s.isEmpty && !s.contains '.' && !s.contains '#'

/-- Per-node well-formedness of a linked environment: a usable id, a
usable name (only Singletons may lack one), and pairwise distinct
defined member names. -/
def nodeOk (n : ENode) : Bool :=
  goodStr n.id &&
  (match n.name with
    | some nm => goodStr nm
    | none => n.kind == EKind.singleton) &&
  decide (n.members.filterMap ENode.name).Nodup

/-- Well-formedness of a linked environment: distinct top-level names,
well-formed nodes throughout, and globally distinct ids. -/
def envWf (env : List ENode) : Prop :=
  (env.filterMap ENode.name).Nodup ∧
  (∀ n ∈ allNodes env, nodeOk n = true) ∧
  ((allNodes env).map ENode.id).Nodup

/-- The structural side conditions under which the #id form of an
unnamed Singleton's fully qualified name resolves: its superclass
target exists, sits under at least one Package (all of its ancestors
are Packages), and the Singleton's own chain consists of Packages or
contributes nothing to its fully qualified name. -/
def singletonAnchored (env : List ENode) (ps : List ENode) (e : ENode) : Prop :=
  (∃ sid psT t, e.superRef = some sid ∧ findChain env sid = some (psT, t) ∧
    psT ≠ [] ∧ (∀ p ∈ psT, p.kind = EKind.pkg) ∧ (∃ nm, t.name = some nm)) ∧
  ((∀ p ∈ ps, p.kind = EKind.pkg) ∨ fullyQualifiedName env ps e = entLabel env e)

/-- Witness environment: package p with a nested package q holding
class C, and an unnamed singleton extending C. -/
def cNodeW : ENode := .mk .cls ['3'] (some ['C']) none []

def qNodeW : ENode := .mk .pkg ['2'] (some ['q']) none [cNodeW]

def sNodeW : ENode := .mk .singleton ['4'] none (some ['3']) []

def pNodeW : ENode := .mk .pkg ['1'] (some ['p']) none [qNodeW, sNodeW]

def envW : List ENode := [pNodeW]

/-- Counterexample environment for the FQN round-trip claim: a Test
inside a Describe inside a package; the Test's fully qualified name is
its bare label because its parent is not a Package. -/
def tNodeC : ENode := .mk .test ['3'] (some ['t']) none []

def dNodeC : ENode := .mk .describe ['2'] (some ['d']) none [tNodeC]

def pNodeC : ENode := .mk .pkg ['1'] (some ['p']) none [dNodeC]

def envCex : List ENode := [pNodeC]

-- ════════════════════════════════════════════════════════════════════
-- Part 1e. Copy isolation needs object identity, so the runtime state
-- is repeated here with an explicit store: frames and instances live
-- in addressed cells, an Evaluation holds cell addresses, and copy
-- allocates fresh cells, exactly mirroring which layers the source
-- clones ({...this} with cloned instances map, cloned instance record
-- and fields per entry, cloned frame record with cloned locals,
-- operandStack and resume per frame).  The environment reference
-- stands for everything {...this} passes through by reference (the
-- immutable node tree).
-- ════════════════════════════════════════════════════════════════════

/-- Runtime state with explicit sharing: addresses into the two cell
stores below. -/
structure HEval where
  frameStack : List Nat
  instances : List (String × Nat)
  envRef : Nat
deriving DecidableEq

/-- The mutable cells: one Frame record (with its three collections)
per frame cell, one RObj record (with its fields map) per instance
cell. -/
structure Store where
  frames : List Frame
  insts : List RObj
deriving DecidableEq

def defaultFrame : Frame := { locals := [], operandStack := [], resume := [] }

def defaultRObj : RObj := { id := "", module := "", fields := [], innerValue := none }

def readFrame (s : Store) (a : Nat) : Frame := s.frames.getD a defaultFrame

def readInst (s : Store) (a : Nat) : RObj := s.insts.getD a defaultRObj

/-- Consecutive fresh addresses starting at base. -/
def allocSeq (base : Nat) : Nat → List Nat
  | 0 => []
  | n + 1 => base :: allocSeq (base + 1) n

/-- The instances map of the clone: same keys in the same order, each
bound to the next fresh address. -/
def allocInsts (base : Nat) : List (String × Nat) → List (String × Nat)
  | [] => []
  | p :: rest => (p.1, base) :: allocInsts (base + 1) rest

/-- Models Evaluation.copy(): every frame referenced by the evaluation
is cloned into a fresh cell (carrying copies of its locals, operand
stack and resume list), every instances entry is cloned into a fresh
cell (carrying a copy of its fields map), and the remaining state (the
environment reference) is passed through by reference. -/
def HEval.copy (s : Store) (e : HEval) : Store × HEval :=
  ({ frames := s.frames ++ e.frameStack.map (fun a => readFrame s a),
     insts := s.insts ++ e.instances.map (fun p => readInst s p.2) },
   { frameStack := allocSeq s.frames.length e.frameStack.length,
     instances := allocInsts s.insts.length e.instances,
     envRef := e.envRef })

/-- The mutations the claim performs: on a frame cell, push or pop an
operand, write a local, drop a resume entry; on an instance cell,
write a field. -/
inductive Mutation where
  | pushOp (a : Nat) (v : String)
  | popOp (a : Nat)
  | writeLocal (a : Nat) (n v : String)
  | dropResume (a : Nat) (k : String)
  | writeField (a : Nat) (f v : String)
deriving DecidableEq

/-- The frame cell a mutation touches, if any. -/
def Mutation.frameAddr : Mutation → Option Nat
  | .pushOp a _ => some a
  | .popOp a => some a
  | .writeLocal a _ _ => some a
  | .dropResume a _ => some a
  | .writeField _ _ _ => none

/-- The instance cell a mutation touches, if any. -/
def Mutation.instAddr : Mutation → Option Nat
  | .writeField a _ _ => some a
  | _ => none

def applyMutation (m : Mutation) (s : Store) : Store :=
  match m with
  | .pushOp a v =>
    let f := readFrame s a
    { s with frames := s.frames.set a { f with operandStack := f.operandStack ++ [v] } }
  | .popOp a =>
    let f := readFrame s a
    { s with frames := s.frames.set a { f with operandStack := f.operandStack.dropLast } }
  | .writeLocal a n v =>
    let f := readFrame s a
    { s with frames := s.frames.set a { f with locals := f.locals ++ [(n, v)] } }
  | .dropResume a k =>
    let f := readFrame s a
    { s with frames := s.frames.set a { f with resume := f.resume.filter (fun x => !(x == k)) } }
  | .writeField a f v =>
    let o := readInst s a
    { s with insts := s.insts.set a { o with fields := o.fields ++ [(f, v)] } }

/-- What an evaluation observes: its frames and its instance table,
dereferenced. -/
def HEval.viewFrames (s : Store) (e : HEval) : List Frame :=
  e.frameStack.map (fun a => readFrame s a)

def HEval.viewInsts (s : Store) (e : HEval) : List (String × RObj) :=
  e.instances.map (fun p => (p.1, readInst s p.2))

/-- Address validity of an evaluation in a store. -/
def HEval.wfIn (s : Store) (e : HEval) : Prop :=
  (∀ a ∈ e.frameStack, a < s.frames.length) ∧ (∀ p ∈ e.instances, p.2 < s.insts.length)

/-- Concrete store and evaluation for the copy-isolation witness. -/
def frameW : Frame := { locals := [("l", "1")], operandStack := ["o"], resume := ["exception"] }

def instW : RObj := { id := "x", module := "M", fields := [("f", "y")], innerValue := none }

def storeW : Store := { frames := [frameW], insts := [instW] }

def hevalW : HEval := { frameStack := [0], instances := [("x", 0)], envRef := 7 }

-- ════════════════════════════════════════════════════════════════════
-- Part 1f. Concrete runtime scenarios used by witnesses and
-- counterexamples.
-- ════════════════════════════════════════════════════════════════════

/-- Frames of the interrupt-unwind scenario: F1 and F3 resume nothing,
F2 resumes "exception". -/
def frameOne : Frame := { locals := [], operandStack := [], resume := [] }

def frameTwo : Frame := { locals := [], operandStack := ["o"], resume := ["exception"] }

def frameThree : Frame := { locals := [], operandStack := [], resume := [] }

def evThreeFrames : Evaluation :=
  { frameStack := [frameOne, frameTwo, frameThree], instances := [], nextUuid := 0 }

/-- The unhandled-interrupt scenario of the spec: one non-resuming
frame, X = { module: "E", fields: { message: Y } } and
Y.innerValue = "boom". -/
def objBoomX : RObj :=
  { id := "x", module := "E", fields := [("message", "y")], innerValue := some .jsNull }

def objBoomY : RObj :=
  { id := "y", module := "Y", fields := [], innerValue := some (.str "boom") }

def evBoom : Evaluation :=
  { frameStack := [frameOne], instances := [("x", objBoomX), ("y", objBoomY)], nextUuid := 0 }

/-- Counterexample data for the unhandled-message claim: the message
instance exists but its innerValue is the falsy number 0, so the code
falls back to X's own innerValue "fallback". -/
def objFallbackX : RObj :=
  { id := "x", module := "E", fields := [("message", "y")], innerValue := some (.str "fallback") }

def objZeroY : RObj :=
  { id := "y", module := "Y", fields := [], innerValue := some (.num 0) }

def evFallback : Evaluation :=
  { frameStack := [frameOne], instances := [("x", objFallbackX), ("y", objZeroY)], nextUuid := 0 }

/-- An empty evaluation for the interning scenario. -/
def evEmpty : Evaluation := { frameStack := [], instances := [], nextUuid := 0 }

/-- Two frames that could both resume "exception": used to show the
top frame is discarded unconditionally by interrupt. -/
def evTwoTop : Evaluation :=
  { frameStack := [frameTwo, frameTwo], instances := [], nextUuid := 0 }

-- ════════════════════════════════════════════════════════════════════
-- Part 2. Lemmas and claim theorems.
-- ════════════════════════════════════════════════════════════════════

theorem sizeL_append (l r : List TNode) :
    TNode.sizeL (l ++ r) = TNode.sizeL l + TNode.sizeL r := by
  induction l with
  | nil => simp [TNode.sizeL]
  | cons p ps ih => rw [List.cons_append, TNode.sizeL, TNode.sizeL, ih]; omega

mutual
theorem reduce_count_size : ∀ (acc : Nat) (t : TNode),
    TNode.reduce (fun a _ => a + 1) acc t = acc + TNode.size t
  | acc, .mk k v cs => by
    rw [TNode.reduce, TNode.size, reduceL_count_size (acc + 1) cs]; omega
theorem reduceL_count_size : ∀ (acc : Nat) (l : List TNode),
    TNode.reduceL (fun a _ => a + 1) acc l = acc + TNode.sizeL l
  | acc, [] => by rw [TNode.reduceL, TNode.sizeL]; omega
  | acc, c :: rest => by
    rw [TNode.reduceL, TNode.sizeL, reduce_count_size acc c, reduceL_count_size _ rest]; omega
end

theorem descendantsLoop_length (next : TNode) (pending : List TNode) :
    (TNode.descendantsLoop none next pending).length + 1 + pending.length =
      TNode.size next + TNode.sizeL pending := by
  induction next, pending using TNode.descendantsLoop.induct none with
  | case1 next pending cs ih =>
    rw [TNode.descendantsLoop]
    cases hq : pending ++ next.children with
    | nil =>
      have hp : pending = [] := (List.append_eq_nil.mp hq).1
      have hc : next.children = [] := (List.append_eq_nil.mp hq).2
      have hsz : TNode.size next = 1 + TNode.sizeL next.children := by
        cases next with
        | mk k v cs2 => rw [TNode.size, TNode.children]
      simp [hq, hp, hc, hsz, TNode.sizeL]
    | cons n rest =>
      have hih := ih n rest hq
      have hlen : (n :: rest).length = pending.length + next.children.length := by
        rw [← hq, List.length_append]
      have hszq : TNode.size n + TNode.sizeL rest = TNode.sizeL pending + TNode.sizeL next.children := by
        have : TNode.sizeL (n :: rest) = TNode.sizeL (pending ++ next.children) := by rw [hq]
        rw [TNode.sizeL, sizeL_append] at this
        omega
      have hsz : TNode.size next = 1 + TNode.sizeL next.children := by
        cases next with
        | mk k v cs2 => rw [TNode.size, TNode.children]
      simp only [List.length_cons] at hlen
      simp only [hq, List.length_append, List.length_cons]
      simp only [List.length_append] at hih
      omega

/-- C8 (corrected): the amended claim.  reduce((a, _) => a + 1, 0)
equals the total node count of the subtree, which is the number of
descendants plus one (the node itself); the extra "+ 1" of the claim's
description does not hold (see the counterexample). -/
theorem reduce_counts_subtree (t : TNode) :
    TNode.reduceCount t = (TNode.descendants none t).length + 1 := by
  have h1 : TNode.reduceCount t = TNode.size t := by
    rw [TNode.reduceCount, reduce_count_size]; omega
  have h2 := descendantsLoop_length t []
  rw [show TNode.sizeL [] = 0 from rfl] at h2
  simp only [List.length_nil] at h2
  simp only [TNode.descendants]
  omega

/-- C8 (corrected): counterexample to the claim as stated.  On a
single leaf node the fold returns 1, but "self plus all descendants
plus one" is 1 + 0 + 1 = 2. -/
theorem reduce_count_leaf_cex :
    TNode.reduceCount tLeaf = 1 ∧ (TNode.descendants none tLeaf).length = 0 ∧
      TNode.reduceCount tLeaf ≠ 1 + (TNode.descendants none tLeaf).length + 1 := by
  have h2 := descendantsLoop_length tLeaf []
  have hsz : TNode.size tLeaf = 1 := by decide
  have h1 : TNode.reduceCount tLeaf = 1 := by decide
  rw [hsz, show TNode.sizeL [] = 0 from rfl] at h2
  simp only [List.length_nil] at h2
  have hlen : (TNode.descendants none tLeaf).length = 0 := by
    simp only [TNode.descendants]; omega
  exact ⟨h1, hlen, by rw [h1, hlen]; decide⟩

mutual
theorem transformByKind_eq_spec :
    ∀ (txm : String → Option (TNode → TNode)) (t : TNode),
      TNode.transformByKind txm t = TNode.specBottomUpByKind txm t
  | txm, .mk k v cs => by
    rw [TNode.transformByKind, TNode.specBottomUpByKind, transformByKindL_eq_spec txm cs]
    cases txm k <;> rfl
theorem transformByKindL_eq_spec :
    ∀ (txm : String → Option (TNode → TNode)) (l : List TNode),
      TNode.transformByKindL txm l = TNode.specBottomUpByKindL txm l
  | _, [] => rfl
  | txm, c :: rest => by
    rw [TNode.transformByKindL, TNode.specBottomUpByKindL,
      transformByKind_eq_spec txm c, transformByKindL_eq_spec txm rest]
end

/-- C2 (corrected): the amended claim.  For the kind-to-function
mapping form, transform is the bottom-up rewrite of the spec (the
per-kind function receives the node only after its children have been
rewritten); for the single-function form, tx is applied to the node
FIRST and the children of its result are rewritten afterwards, as the
unfolding equation shows. -/
theorem transform_by_kind_bottom_up :
    (∀ (txm : String → Option (TNode → TNode)) (t : TNode),
      TNode.transformByKind txm t = TNode.specBottomUpByKind txm t) ∧
    (∀ (tx : TNode → TNode) (fuel : Nat) (k : String) (v : Nat) (cs : List TNode),
      TNode.transformFun tx (fuel + 1) (.mk k v cs) =
        match tx (.mk k v cs) with
        | .mk k' v' cs' =>
          ((cs'.mapM (TNode.transformFun tx fuel)).map (fun l => TNode.mk k' v' l))) :=
  ⟨transformByKind_eq_spec, fun _ _ _ _ _ => rfl⟩

/-- C2 (corrected): counterexample to the claim as stated.  With the
single-function form, transform applies tx before the children are
rewritten: on a parent with one leaf child and a tx that sets the value
to (sum of the children's current values) + 1, the source rewrite
yields value 1 at the parent, the bottom-up rewrite of the spec yields
value 2. -/
theorem transform_fun_not_bottom_up_cex :
    TNode.transformFun txSumChildren 3 tParentLeaf = some (.mk "P" 1 [.mk "L" 1 []]) ∧
    TNode.specBottomUpFun txSumChildren tParentLeaf = .mk "P" 2 [.mk "L" 1 []] ∧
    TNode.transformFun txSumChildren 3 tParentLeaf ≠
      some (TNode.specBottomUpFun txSumChildren tParentLeaf) := by
  refine ⟨rfl, rfl, ?_⟩
  intro hcon
  rw [show TNode.transformFun txSumChildren 3 tParentLeaf = some (.mk "P" 1 [.mk "L" 1 []]) from rfl,
    show TNode.specBottomUpFun txSumChildren tParentLeaf = .mk "P" 2 [.mk "L" 1 []] from rfl] at hcon
  have h2 := Option.some.inj hcon
  injection h2 with hk hv hcs
  exact absurd hv (by decide)

theorem hierFoldl_eq (env : List ModuleNode) (fuel : Nat) :
    ∀ (pids : List Nat) (acc : List ModuleNode) (exs : List Nat),
      (pids.foldl (fun acc pid => (acc.1 ++ hierFuel env fuel pid acc.2, pid :: acc.2))
        (acc, exs)).1 = acc ++ hierConc env fuel pids exs := by
  intro pids
  induction pids with
  | nil => intro acc exs; simp [hierConc]
  | cons pid rest ih =>
    intro acc exs
    rw [List.foldl_cons, hierConc]
    rw [ih (acc ++ hierFuel env fuel pid exs) (pid :: exs)]
    simp [List.append_assoc]

theorem lookupMod_id {env : List ModuleNode} {mid : Nat} {m : ModuleNode}
    (h : lookupMod env mid = some m) : m.id = mid := by
  have := List.find?_some h
  simpa using this

theorem hier_avoid (env : List ModuleNode) :
    ∀ fuel : Nat,
      (∀ mid excl x, x ∈ hierFuel env fuel mid excl → x.id ∉ excl) ∧
      (∀ pids exs x, x ∈ hierConc env fuel pids exs → x.id ∉ exs) := by
  intro fuel
  induction fuel with
  | zero =>
    constructor
    · intro mid excl x hx; simp [hierFuel] at hx
    · intro pids
      induction pids with
      | nil => intro exs x hx; simp [hierConc] at hx
      | cons pid rest ihp =>
        intro exs x hx
        rw [hierConc] at hx
        rcases List.mem_append.mp hx with h1 | h2
        · simp [hierFuel] at h1
        · intro hcon
          exact ihp (pid :: exs) x h2 (List.mem_cons_of_mem _ hcon)
  | succ fuel ih =>
    have hf : ∀ mid excl x, x ∈ hierFuel env (fuel + 1) mid excl → x.id ∉ excl := by
      intro mid excl x hx
      rw [hierFuel] at hx
      by_cases hm : mid ∈ excl
      · simp [hm] at hx
      · simp only [if_neg hm] at hx
        cases hl : lookupMod env mid with
        | none => rw [hl] at hx; simp at hx
        | some m =>
          rw [hl] at hx
          simp only [] at hx
          rw [show (parentRefs m).foldl
              (fun acc pid => (acc.1 ++ hierFuel env fuel pid acc.2, pid :: acc.2))
              ([m], mid :: excl) =
              (parentRefs m).foldl
              (fun acc pid => (acc.1 ++ hierFuel env fuel pid acc.2, pid :: acc.2))
              ([m], mid :: excl) from rfl] at hx
          rw [hierFoldl_eq env fuel (parentRefs m) [m] (mid :: excl)] at hx
          rcases List.mem_append.mp hx with h1 | h2
          · have hxm : x = m := by simpa using h1
            subst hxm
            rw [lookupMod_id hl]
            exact hm
          · have h3 := (ih.2) (parentRefs m) (mid :: excl) x h2
            intro hcon
            exact h3 (List.mem_cons_of_mem _ hcon)
    refine ⟨hf, ?_⟩
    intro pids
    induction pids with
    | nil => intro exs x hx; simp [hierConc] at hx
    | cons pid rest ihp =>
      intro exs x hx
      rw [hierConc] at hx
      rcases List.mem_append.mp hx with h1 | h2
      · exact hf pid exs x h1
      · intro hcon
        exact ihp (pid :: exs) x h2 (List.mem_cons_of_mem _ hcon)

/-- C1 (corrected): the amended claim.  For every module m,
m.hierarchy()[0] is m itself, and m itself never reappears later in
the linearisation (its id occurs exactly once); distinctness of ALL
ids does not hold (see the diamond counterexample). -/
theorem hierarchy_head_self_once (env : List ModuleNode) (m : ModuleNode) :
    (m.hierarchy env).head? = some m ∧
    ((m.hierarchy env).map ModuleNode.id).count m.id = 1 := by
  have hunf : m.hierarchy env =
      m :: hierConc env (env.length + 1) (parentRefs m) [m.id] := by
    rw [ModuleNode.hierarchy, hierFoldl_eq env (env.length + 1) (parentRefs m) [m] [m.id]]
    rfl
  constructor
  · rw [hunf]; rfl
  · rw [hunf, List.map_cons]
    have h0 : ((hierConc env (env.length + 1) (parentRefs m) [m.id]).map ModuleNode.id).count m.id = 0 := by
      apply List.count_eq_zero.mpr
      intro hmem
      rcases List.mem_map.mp hmem with ⟨x, hx, hxid⟩
      have hav := (hier_avoid env (env.length + 1)).2 (parentRefs m) [m.id] x hx
      exact hav (by rw [hxid]; exact List.mem_singleton.mpr rfl)
    simp [List.count_cons, h0]

/-- C1 (corrected): counterexample to the claim as stated.  In the
diamond environment the hierarchy of C is [C, M1, M3, M2, M3]: the
first element is C, but the mixin M3, reachable through both M1 and
M2, appears twice, so the ids are not pairwise distinct. -/
theorem hierarchy_diamond_cex :
    (ModuleNode.hierarchy mixinDiamondEnv mixinDiamondC).map ModuleNode.id = [0, 1, 3, 2, 3] ∧
    (ModuleNode.hierarchy mixinDiamondEnv mixinDiamondC).head? = some mixinDiamondC ∧
    ¬ ((ModuleNode.hierarchy mixinDiamondEnv mixinDiamondC).map ModuleNode.id).Nodup := by
  refine ⟨by decide, by decide, by decide⟩

/-- C6 (confirmed): the arity-match predicate of lookupMethod holds of
a parameter list and an arity exactly when (some parameter is varargs
and n - 1 <= arity) or n = arity; and on a module declaring foo(a, *b)
the lookups at arity 1 and 4 return that method while arity 0 finds
nothing. -/
theorem lookupMethod_arity_match :
    (∀ (parameters : List Param) (arity : Nat),
      matchesArity parameters arity = true ↔
        (((∃ p ∈ parameters, p.isVarArg = true) ∧ parameters.length - 1 ≤ arity) ∨
          parameters.length = arity)) ∧
    ModuleNode.lookupMethod fooEnv fooModule "foo" 1 = some fooMethod ∧
    ModuleNode.lookupMethod fooEnv fooModule "foo" 4 = some fooMethod ∧
    ModuleNode.lookupMethod fooEnv fooModule "foo" 0 = none := by
  refine ⟨?_, by decide, by decide, by decide⟩
  intro parameters arity
  simp [matchesArity, List.any_eq_true]

theorem loopRev_eq_seek (kind : String) (F : Frame) (l : List Frame) :
    interruptLoopRev kind (F :: l) = seekHandlerRev kind l := by
  induction l generalizing F with
  | nil => rfl
  | cons f rest ih =>
    rw [interruptLoopRev, seekHandlerRev]
    by_cases hf : kind ∈ f.resume
    · simp [List.contains, List.elem_eq_mem, hf]
    · simp only [List.contains, List.elem_eq_mem, hf, decide_eq_false hf, if_false, Bool.false_eq_true]
      exact ih f

theorem seek_len (kind : String) (l : List Frame) :
    (seekHandlerRev kind l).length ≤ l.length := by
  induction l with
  | nil => simp [seekHandlerRev]
  | cons f rest ih =>
    rw [seekHandlerRev]
    by_cases hf : kind ∈ f.resume
    · simp [List.contains, List.elem_eq_mem, hf]
    · simp only [List.contains, List.elem_eq_mem, decide_eq_false hf, if_false, Bool.false_eq_true]
      exact Nat.le_succ_of_le ih

theorem seek_skips (kind : String) (pre rest : List Frame) (F : Frame)
    (hpre : ∀ f ∈ pre, kind ∉ f.resume)
    (hF : kind ∈ F.resume) :
    seekHandlerRev kind (pre ++ F :: rest) = F :: rest := by
  induction pre with
  | nil =>
    rw [List.nil_append, seekHandlerRev]
    simp [List.contains, List.elem_eq_mem, hF]
  | cons p ps ih =>
    rw [List.cons_append, seekHandlerRev]
    have hp := hpre p (List.mem_cons_self p ps)
    simp only [List.contains, List.elem_eq_mem, decide_eq_false hp, if_false, Bool.false_eq_true]
    exact ih (fun f hf => hpre f (List.mem_cons_of_mem p hf))

theorem seek_nil (kind : String) (l : List Frame)
    (h : ∀ f ∈ l, kind ∉ f.resume) :
    seekHandlerRev kind l = [] := by
  induction l with
  | nil => rfl
  | cons f rest ih =>
    rw [seekHandlerRev]
    simp only [List.contains, List.elem_eq_mem, decide_eq_false (h f (List.mem_cons_self f rest)), if_false, Bool.false_eq_true]
    exact ih (fun g hg => h g (List.mem_cons_of_mem f hg))

theorem interruptLoop_nil (kind : String) (s : List Frame)
    (h : ∀ f ∈ s, kind ∉ f.resume) :
    interruptLoop kind s = [] := by
  rw [interruptLoop]
  cases hs : s.reverse with
  | nil => rfl
  | cons F l =>
    rw [loopRev_eq_seek, seek_nil]
    · rfl
    · intro f hf
      apply h
      have hfs : f ∈ s.reverse := by rw [hs]; exact List.mem_cons_of_mem F hf
      exact List.mem_reverse.mp hfs

theorem interrupt_ok_shape (ev : Evaluation) (kind vId : String) (ev' : Evaluation)
    (hok : ev.interrupt kind vId = Except.ok ev') :
    ∃ f, (interruptLoop kind ev.frameStack).getLast? = some f ∧
      ev' = { ev with frameStack := (interruptLoop kind ev.frameStack).dropLast ++
        [Frame.pushOperand { f with resume := f.resume.filter (fun elem => !(elem == kind)) } vId] } := by
  simp only [Evaluation.interrupt] at hok
  split at hok
  · exfalso
    rcases hgi : ev.getInstance vId with m | value
    · rw [hgi] at hok
      simp [Bind.bind, Except.bind] at hok
    · rw [hgi] at hok
      simp only [Bind.bind, Except.bind] at hok
      by_cases hk : (kind == "exception") = true
      · rw [if_pos hk] at hok
        rcases hdet : Except.map (fun d => value.module ++ ": " ++ d) (unhandledDetail ev value)
          with m2 | v2 <;> rw [hdet] at hok <;> simp at hok
      · rw [if_neg hk] at hok
        simp [Pure.pure, Except.pure] at hok
  · next f hsome =>
    refine ⟨f, hsome, ?_⟩
    exact (Except.ok.inj hok).symm

/-- C10 (confirmed): interrupt always removes the top frame before
searching for a handler: the unwinding loop on a stack with top frame
F is the plain handler search (seekHandlerRev, which does not pre-pop)
run on the frames STRICTLY BELOW F, whatever F's resume set is; hence
when interrupt succeeds, the handling frame sits strictly below the
frame that was on top, and at most L frames remain. -/
theorem interrupt_discards_top (ev : Evaluation) (kind vId : String)
    (L : List Frame) (F : Frame) (h : ev.frameStack = L ++ [F]) :
    interruptLoop kind ev.frameStack = (seekHandlerRev kind L.reverse).reverse ∧
    ∀ ev', ev.interrupt kind vId = Except.ok ev' → ev'.frameStack.length ≤ L.length := by
  have hloop : interruptLoop kind (L ++ [F]) = (seekHandlerRev kind L.reverse).reverse := by
    rw [interruptLoop]
    rw [show (L ++ [F]).reverse = F :: L.reverse by simp]
    rw [loopRev_eq_seek]
  refine ⟨by rw [h]; exact hloop, ?_⟩
  intro ev' hok
  rcases interrupt_ok_shape ev kind vId ev' hok with ⟨f, hsome, hev⟩
  rw [h, hloop] at hsome hev
  have hne : (seekHandlerRev kind L.reverse).reverse ≠ [] := by
    intro hnil
    rw [hnil] at hsome
    simp at hsome
  have hlen1 : (seekHandlerRev kind L.reverse).length ≤ L.length := by
    have hs := seek_len kind L.reverse
    simpa using hs
  have hpos : 0 < (seekHandlerRev kind L.reverse).reverse.length :=
    List.length_pos.mpr hne
  rw [hev]
  simp only [List.length_append, List.length_dropLast, List.length_reverse,
    List.length_cons, List.length_nil]
  simp only [List.length_reverse] at hpos
  omega

/-- C10 witness: on a stack of two frames that can both resume
"exception", the loop result is the pre-pop-free search over the lower
frame only. -/
theorem interrupt_discards_top_witness :
    interruptLoop "exception" evTwoTop.frameStack =
      (seekHandlerRev "exception" [frameTwo].reverse).reverse :=
  (interrupt_discards_top evTwoTop "exception" "X" [frameTwo] frameTwo rfl).1

/-- C3 (confirmed): when the frame stack is L ++ [F] ++ R with a
non-empty R of frames that cannot resume the interruption and a frame
F that can, interrupt pops exactly R, removes the interruption from
F's resume list, pushes the value id on F's operand stack, and leaves
L unchanged. -/
theorem interrupt_unwinds_to_handler (ev : Evaluation) (kind vId : String)
    (L : List Frame) (F : Frame) (R : List Frame)
    (hstack : ev.frameStack = L ++ F :: R)
    (hF : kind ∈ F.resume)
    (hR : ∀ f ∈ R, kind ∉ f.resume)
    (hRne : R ≠ []) :
    ev.interrupt kind vId =
      Except.ok { ev with frameStack :=
        L ++ [{ F with
                resume := F.resume.filter (fun elem => !(elem == kind)),
                operandStack := F.operandStack ++ [vId] }] } := by
  have hloop : interruptLoop kind (L ++ F :: R) = L ++ [F] := by
    rw [interruptLoop]
    rcases hrr : R.reverse with _ | ⟨r, R'⟩
    · exact absurd (List.reverse_eq_nil_iff.mp hrr) hRne
    · have hshape : (L ++ F :: R).reverse = r :: (R' ++ F :: L.reverse) := by
        rw [List.reverse_append, List.reverse_cons, hrr]
        simp
      rw [hshape, loopRev_eq_seek, seek_skips]
      · simp
      · intro f hf
        apply hR
        have hfr : f ∈ R.reverse := by rw [hrr]; exact List.mem_cons_of_mem r hf
        exact List.mem_reverse.mp hfr
      · exact hF
  simp only [Evaluation.interrupt, hstack, hloop, List.getLast?_concat, List.dropLast_concat]
  rfl

/-- C3 witness: the spec scenario [F1, F2, F3] with F2 resuming
"exception": interrupt("exception", X) leaves [F1, F2'] with F2's
resume emptied and X on top of its operand stack. -/
theorem interrupt_unwind_scenario :
    evThreeFrames.interrupt "exception" "X" =
      Except.ok { frameStack := [frameOne, { locals := [], operandStack := ["o", "X"], resume := [] }], instances := [], nextUuid := 0 } :=
  interrupt_unwinds_to_handler evThreeFrames "exception" "X" [frameOne] frameTwo [frameThree]
    rfl (by decide) (by decide) (by decide)

/-- C4 (corrected): the amended claim.  When no frame can resume
"exception" and the interrupted instance has a message field bound to
an existing instance, the failure message ends with (hence contains)
the instance's module, ": ", and the message instance's innerValue IF
THAT VALUE IS TRUTHY, the instance's own innerValue otherwise (the
source guards the field read with JavaScript truthiness, so a falsy
message innerValue falls back; see the counterexample). -/
theorem interrupt_unhandled_message (ev : Evaluation) (vId mid : String) (value mobj : RObj)
    (hall : ∀ f ∈ ev.frameStack, "exception" ∉ f.resume)
    (hv : lookupAssoc ev.instances vId = some value)
    (hm : lookupAssoc value.fields "message" = some mid)
    (hmid : (mid == "") = false)
    (hmo : lookupAssoc ev.instances mid = some mobj) :
    ev.interrupt "exception" vId =
      Except.error ("Unhandled \"exception\" interruption: [" ++ vId ++ "] " ++
        (value.module ++ ": " ++
          jsDisplay (if jsTruthy mobj.innerValue then mobj.innerValue else value.innerValue))) ∧
    (value.module ++ ": " ++
        jsDisplay (if jsTruthy mobj.innerValue then mobj.innerValue else value.innerValue)).toList <:+
      ("Unhandled \"exception\" interruption: [" ++ vId ++ "] " ++
        (value.module ++ ": " ++
          jsDisplay (if jsTruthy mobj.innerValue then mobj.innerValue else value.innerValue))).toList := by
  constructor
  · have hloop := interruptLoop_nil "exception" ev.frameStack hall
    have hgi : ev.getInstance vId = Except.ok value := by
      rw [Evaluation.getInstance, hv]
    have hdet : unhandledDetail ev value =
        Except.ok (jsDisplay (if jsTruthy mobj.innerValue then mobj.innerValue
          else value.innerValue)) := by
      simp only [unhandledDetail, hm, hmid, Bool.false_eq_true, if_false]
      rw [show ev.getInstance mid = Except.ok mobj from by rw [Evaluation.getInstance, hmo]]
      by_cases ht : jsTruthy mobj.innerValue
      · simp [ht, Except.map]
      · simp [ht, Except.map]
    simp only [Evaluation.interrupt, hloop, List.getLast?_nil]
    rw [hgi]
    simp only [Bind.bind, Except.bind]
    rw [if_pos (by rfl : (("exception" : String) == "exception") = true)]
    rw [hdet]
    simp only [Except.map]
    rfl
  · rw [show ("Unhandled \"exception\" interruption: [" ++ vId ++ "] " ++
        (value.module ++ ": " ++
          jsDisplay (if jsTruthy mobj.innerValue then mobj.innerValue
            else value.innerValue))).toList =
        ("Unhandled \"exception\" interruption: [" ++ vId ++ "] ").toList ++
        (value.module ++ ": " ++
          jsDisplay (if jsTruthy mobj.innerValue then mobj.innerValue
            else value.innerValue)).toList from by
      simp [String.toList, String.data_append]]
    exact List.suffix_append _ _

/-- C4 witness: the spec scenario — one non-resuming frame, X with
module "E" and message Y, Y.innerValue = "boom": the failure message
contains "E: boom". -/
theorem interrupt_unhandled_message_witness :
    evBoom.interrupt "exception" "x" =
      Except.error ("Unhandled \"exception\" interruption: [" ++ "x" ++ "] " ++
        ("E" ++ ": " ++
          jsDisplay (if jsTruthy objBoomY.innerValue then objBoomY.innerValue
            else objBoomX.innerValue))) ∧
    ("E" ++ ": " ++
        jsDisplay (if jsTruthy objBoomY.innerValue then objBoomY.innerValue
          else objBoomX.innerValue)).toList <:+
      ("Unhandled \"exception\" interruption: [" ++ "x" ++ "] " ++
        ("E" ++ ": " ++
          jsDisplay (if jsTruthy objBoomY.innerValue then objBoomY.innerValue
            else objBoomX.innerValue))).toList :=
  interrupt_unhandled_message evBoom "x" "y" objBoomX objBoomY
    (by decide) (by decide) (by decide) (by decide) (by decide)

/-- C4 (corrected): counterexample to the claim as stated.  X's
message field is present and bound to Y, but Y.innerValue is the falsy
number 0, so the source uses X's own innerValue "fallback": the error
message does not contain "E: 0" (module followed by the message
instance's innerValue), which the claim requires whenever the field is
present. -/
theorem interrupt_unhandled_message_cex :
    evFallback.interrupt "exception" "x" =
      Except.error "Unhandled \"exception\" interruption: [x] E: fallback" ∧
    ¬ ("E: 0".toList <:+: "Unhandled \"exception\" interruption: [x] E: fallback".toList) := by
  constructor
  · rfl
  · decide

theorem lookupAssoc_map_overwrite (l : List (String × RObj)) (id : String) (obj : RObj)
    (h : l.any (fun p => p.1 == id) = true) :
    lookupAssoc (l.map (fun p => if p.1 == id then (id, obj) else p)) id = some obj := by
  induction l with
  | nil => simp at h
  | cons p rest ih =>
    by_cases hp : p.1 == id
    · simp only [List.map_cons, hp, if_true, lookupAssoc, List.find?]
      simp
    · simp only [List.any_cons, hp, Bool.false_or] at h
      simp only [List.map_cons, hp, Bool.false_eq_true, if_false]
      have := ih h
      simp only [lookupAssoc, List.find?, hp] at this ⊢
      exact this

theorem lookupAssoc_append_new (l : List (String × RObj)) (id : String) (obj : RObj)
    (h : l.any (fun p => p.1 == id) = false) :
    lookupAssoc (l ++ [(id, obj)]) id = some obj := by
  induction l with
  | nil => simp [lookupAssoc]
  | cons p rest ih =>
    simp only [List.any_cons, Bool.or_eq_false_iff] at h
    simp only [List.cons_append, lookupAssoc, List.find?, h.1]
    have := ih h.2
    simp only [lookupAssoc] at this
    exact this

theorem lookupAssoc_setInstance (ev : Evaluation) (id : String) (obj : RObj) :
    lookupAssoc (ev.setInstance id obj).instances id = some obj := by
  simp only [Evaluation.setInstance]
  by_cases h : ev.instances.any (fun p => p.1 == id) = true
  · rw [if_pos h]
    exact lookupAssoc_map_overwrite ev.instances id obj h
  · rw [if_neg h]
    exact lookupAssoc_append_new ev.instances id obj (Bool.not_eq_true _ ▸ Bool.of_not_eq_true h)

/-- C5 (confirmed): two createInstance("wollok.lang.Number", v) calls
whose arguments have the same toFixed(DECIMAL_PRECISION) form return
the same id and leave the same instances entry: the N!-prefixed id and
the stored record (empty fields, innerValue the re-parsed rounded
number) are both functions of that string alone. -/
theorem createInstance_number_interning (ev₁ ev₂ : Evaluation) (q₁ q₂ : ℚ)
    (h : toFixedAt DECIMAL_PRECISION q₁ = toFixedAt DECIMAL_PRECISION q₂) :
    ∃ id obj ev₁' ev₂',
      ev₁.createInstance "wollok.lang.Number" (some (.num q₁)) = Except.ok (id, ev₁') ∧
      ev₂.createInstance "wollok.lang.Number" (some (.num q₂)) = Except.ok (id, ev₂') ∧
      lookupAssoc ev₁'.instances id = some obj ∧
      lookupAssoc ev₂'.instances id = some obj := by
  refine ⟨"N!" ++ toFixedAt DECIMAL_PRECISION q₁,
    { id := "N!" ++ toFixedAt DECIMAL_PRECISION q₁, module := "wollok.lang.Number",
      fields := [],
      innerValue := some (.num (parseFixed (toFixedAt DECIMAL_PRECISION q₁))) },
    ev₁.setInstance ("N!" ++ toFixedAt DECIMAL_PRECISION q₁)
      { id := "N!" ++ toFixedAt DECIMAL_PRECISION q₁, module := "wollok.lang.Number",
        fields := [],
        innerValue := some (.num (parseFixed (toFixedAt DECIMAL_PRECISION q₁))) },
    ev₂.setInstance ("N!" ++ toFixedAt DECIMAL_PRECISION q₁)
      { id := "N!" ++ toFixedAt DECIMAL_PRECISION q₁, module := "wollok.lang.Number",
        fields := [],
        innerValue := some (.num (parseFixed (toFixedAt DECIMAL_PRECISION q₁))) },
    ?_, ?_, ?_, ?_⟩
  · rfl
  · rw [show ev₂.createInstance "wollok.lang.Number" (some (.num q₂)) =
      Except.ok ("N!" ++ toFixedAt DECIMAL_PRECISION q₂,
        ev₂.setInstance ("N!" ++ toFixedAt DECIMAL_PRECISION q₂)
          { id := "N!" ++ toFixedAt DECIMAL_PRECISION q₂, module := "wollok.lang.Number",
            fields := [],
            innerValue := some (.num (parseFixed (toFixedAt DECIMAL_PRECISION q₂))) })
      from rfl]
    rw [← h]
  · exact lookupAssoc_setInstance ev₁ _ _
  · exact lookupAssoc_setInstance ev₂ _ _

/-- C5 witness: with DECIMAL_PRECISION = 5, the arguments 1.0 and
1.000001 round to the same string; both calls return the id
"N!1.00000" and the stored innerValue equals 1. -/
theorem createInstance_number_interning_witness :
    toFixedAt DECIMAL_PRECISION 1 = toFixedAt DECIMAL_PRECISION (mkRat 1000001 1000000) ∧
    (∃ id obj ev₁' ev₂',
      evEmpty.createInstance "wollok.lang.Number" (some (.num 1)) = Except.ok (id, ev₁') ∧
      evEmpty.createInstance "wollok.lang.Number" (some (.num (mkRat 1000001 1000000))) =
        Except.ok (id, ev₂') ∧
      lookupAssoc ev₁'.instances id = some obj ∧
      lookupAssoc ev₂'.instances id = some obj) ∧
    (evEmpty.createInstance "wollok.lang.Number" (some (.num 1))).toOption.map Prod.fst =
      some "N!1.00000" ∧
    parseFixed "1.00000" = 1 :=
  ⟨by decide,
   createInstance_number_interning evEmpty evEmpty 1 (mkRat 1000001 1000000) (by decide),
   by decide, by decide⟩

theorem allocSeq_mem {base n a : Nat} (h : a ∈ allocSeq base n) : base ≤ a := by
  induction n generalizing base with
  | zero => simp [allocSeq] at h
  | succ n ih =>
    rw [allocSeq] at h
    rcases List.mem_cons.mp h with h1 | h2
    · omega
    · have := ih h2; omega

theorem allocInsts_mem {base : Nat} {l : List (String × Nat)} {p : String × Nat}
    (h : p ∈ allocInsts base l) : base ≤ p.2 := by
  induction l generalizing base with
  | nil => simp [allocInsts] at h
  | cons q rest ih =>
    rw [allocInsts] at h
    rcases List.mem_cons.mp h with h1 | h2
    · rw [h1]
    · have := ih h2; omega

theorem getD_append_low {α : Type} (l l' : List α) (d : α) (n : Nat) (h : n < l.length) :
    (l ++ l').getD n d = l.getD n d := by
  simp [List.getD_eq_getElem?_getD, List.getElem?_append_left h]

theorem view_alloc {α : Type} (d : α) (pre : List α) (xs : List α) :
    (allocSeq pre.length xs.length).map (fun a => (pre ++ xs).getD a d) = xs := by
  induction xs generalizing pre with
  | nil => simp [allocSeq]
  | cons x rest ih =>
    rw [List.length_cons, allocSeq, List.map_cons]
    congr 1
    · rw [List.getD_eq_getElem?_getD]
      rw [List.getElem?_append_right (Nat.le_refl pre.length)]
      simp
    · have hre : pre ++ x :: rest = (pre ++ [x]) ++ rest := by simp
      have hlen : pre.length + 1 = (pre ++ [x]).length := by simp
      rw [hre, hlen, ih (pre ++ [x])]

theorem view_alloc_insts (pre : List RObj) (ps : List (String × Nat)) (g : Nat → RObj) :
    (allocInsts pre.length ps).map
        (fun p => (p.1, (pre ++ ps.map (fun q => g q.2)).getD p.2 defaultRObj)) =
      ps.map (fun q => (q.1, g q.2)) := by
  induction ps generalizing pre with
  | nil => simp [allocInsts]
  | cons q rest ih =>
    rw [List.map_cons, allocInsts, List.map_cons]
    congr 1
    · rw [List.getD_eq_getElem?_getD]
      rw [List.getElem?_append_right (Nat.le_refl pre.length)]
      simp
    · have h2 := ih (pre ++ [g q.2])
      rw [show (pre ++ [g q.2]).length = pre.length + 1 from by simp] at h2
      rw [show (pre ++ [g q.2]) ++ rest.map (fun r => g r.2) = pre ++ g q.2 :: rest.map (fun r => g r.2) from by simp] at h2
      exact h2

theorem readFrame_mut_other (m : Mutation) (s : Store) (b : Nat)
    (hb : ∀ a, m.frameAddr = some a → b ≠ a) :
    readFrame (applyMutation m s) b = readFrame s b := by
  cases m with
  | pushOp a v =>
    have hba := hb a rfl
    simp [applyMutation, readFrame, List.getD_eq_getElem?_getD,
      List.getElem?_set_ne (fun hc => hba hc.symm)]
  | popOp a =>
    have hba := hb a rfl
    simp [applyMutation, readFrame, List.getD_eq_getElem?_getD,
      List.getElem?_set_ne (fun hc => hba hc.symm)]
  | writeLocal a n v =>
    have hba := hb a rfl
    simp [applyMutation, readFrame, List.getD_eq_getElem?_getD,
      List.getElem?_set_ne (fun hc => hba hc.symm)]
  | dropResume a k =>
    have hba := hb a rfl
    simp [applyMutation, readFrame, List.getD_eq_getElem?_getD,
      List.getElem?_set_ne (fun hc => hba hc.symm)]
  | writeField a f v => rfl

theorem readInst_mut_other (m : Mutation) (s : Store) (b : Nat)
    (hb : ∀ a, m.instAddr = some a → b ≠ a) :
    readInst (applyMutation m s) b = readInst s b := by
  cases m with
  | writeField a f v =>
    have hba := hb a rfl
    simp [applyMutation, readInst, List.getD_eq_getElem?_getD,
      List.getElem?_set_ne (fun hc => hba hc.symm)]
  | pushOp a v => rfl
  | popOp a => rfl
  | writeLocal a n v => rfl
  | dropResume a k => rfl

/-- C9 (confirmed): copy isolation.  After (s', e2) = copy(s, e): the
clone shares the environment reference (the node tree) but observes
the same frame and instance contents; any of the claim's mutations
(operand push or pop, local write, resume removal, field write)
performed through e2's cells leaves every observation of e unchanged,
and symmetrically mutations through e's cells leave e2's observations
unchanged. -/
theorem copy_isolation (s : Store) (e : HEval) (hwf : e.wfIn s) :
    ((HEval.copy s e).2).envRef = e.envRef ∧
    HEval.viewFrames (HEval.copy s e).1 (HEval.copy s e).2 = HEval.viewFrames s e ∧
    HEval.viewFrames (HEval.copy s e).1 e = HEval.viewFrames s e ∧
    HEval.viewInsts (HEval.copy s e).1 (HEval.copy s e).2 = HEval.viewInsts s e ∧
    HEval.viewInsts (HEval.copy s e).1 e = HEval.viewInsts s e ∧
    (∀ m : Mutation,
      (∀ a, m.frameAddr = some a → a ∈ ((HEval.copy s e).2).frameStack) →
      (∀ a, m.instAddr = some a → a ∈ ((HEval.copy s e).2).instances.map Prod.snd) →
      HEval.viewFrames (applyMutation m (HEval.copy s e).1) e =
          HEval.viewFrames (HEval.copy s e).1 e ∧
        HEval.viewInsts (applyMutation m (HEval.copy s e).1) e =
          HEval.viewInsts (HEval.copy s e).1 e) ∧
    (∀ m : Mutation,
      (∀ a, m.frameAddr = some a → a ∈ e.frameStack) →
      (∀ a, m.instAddr = some a → a ∈ e.instances.map Prod.snd) →
      HEval.viewFrames (applyMutation m (HEval.copy s e).1) (HEval.copy s e).2 =
          HEval.viewFrames (HEval.copy s e).1 (HEval.copy s e).2 ∧
        HEval.viewInsts (applyMutation m (HEval.copy s e).1) (HEval.copy s e).2 =
          HEval.viewInsts (HEval.copy s e).1 (HEval.copy s e).2) := by
  refine ⟨rfl, ?_, ?_, ?_, ?_, ?_, ?_⟩
  · show ((allocSeq s.frames.length e.frameStack.length).map
      (fun a => readFrame (HEval.copy s e).1 a)) = _
    have hv := view_alloc defaultFrame s.frames (e.frameStack.map (fun a => readFrame s a))
    rw [List.length_map] at hv
    exact hv
  · apply List.map_congr_left
    intro a ha
    show readFrame (HEval.copy s e).1 a = readFrame s a
    exact getD_append_low _ _ _ _ (hwf.1 a ha)
  · show ((allocInsts s.insts.length e.instances).map
      (fun p => (p.1, readInst (HEval.copy s e).1 p.2))) = _
    exact view_alloc_insts s.insts e.instances (fun a => readInst s a)
  · apply List.map_congr_left
    intro p hp
    show (p.1, readInst (HEval.copy s e).1 p.2) = (p.1, readInst s p.2)
    have := getD_append_low s.insts (e.instances.map (fun q => readInst s q.2))
      defaultRObj p.2 (hwf.2 p hp)
    rw [show readInst (HEval.copy s e).1 p.2 = readInst s p.2 from this]
  · intro m hmf hmi
    constructor
    · apply List.map_congr_left
      intro b hb
      apply readFrame_mut_other
      intro a ha
      have h1 := allocSeq_mem (hmf a ha)
      have h2 := hwf.1 b hb
      omega
    · apply List.map_congr_left
      intro p hp
      have hri : readInst (applyMutation m (HEval.copy s e).1) p.2 =
          readInst (HEval.copy s e).1 p.2 := by
        apply readInst_mut_other
        intro a ha
        rcases List.mem_map.mp (hmi a ha) with ⟨q, hq, hqa⟩
        have h1 := allocInsts_mem hq
        have h2 := hwf.2 p hp
        omega
      rw [hri]
  · intro m hmf hmi
    constructor
    · apply List.map_congr_left
      intro b hb
      apply readFrame_mut_other
      intro a ha
      have h1 := allocSeq_mem hb
      have h2 := hwf.1 a (hmf a ha)
      omega
    · apply List.map_congr_left
      intro p hp
      have hri : readInst (applyMutation m (HEval.copy s e).1) p.2 =
          readInst (HEval.copy s e).1 p.2 := by
        apply readInst_mut_other
        intro a ha
        rcases List.mem_map.mp (hmi a ha) with ⟨q, hq, hqa⟩
        have h1 := allocInsts_mem hp
        have h2 := hwf.2 q hq
        omega
      rw [hri]

/-- C9 witness: a one-frame, one-instance store; pushing an operand on
the clone's fresh frame cell does not change the original's view. -/
theorem copy_isolation_witness :
    ((HEval.copy storeW hevalW).2).envRef = hevalW.envRef ∧
    HEval.viewFrames (applyMutation (Mutation.pushOp 1 "v") (HEval.copy storeW hevalW).1) hevalW =
      HEval.viewFrames (HEval.copy storeW hevalW).1 hevalW :=
  ⟨(copy_isolation storeW hevalW (by constructor <;> decide)).1,
   ((copy_isolation storeW hevalW (by constructor <;> decide)).2.2.2.2.2.1
     (Mutation.pushOp 1 "v") (by decide) (by decide)).1⟩

theorem splitFirst_not_mem {c : Char} {s : Str} (h : c ∉ s) : splitFirst c s = none := by
  induction s with
  | nil => rfl
  | cons x xs ih =>
    rw [splitFirst]
    have hx : ¬ (x == c) = true := by
      simp only [beq_iff_eq]
      intro hc
      exact h (hc ▸ List.mem_cons_self x xs)
    rw [if_neg hx, ih (fun hm => h (List.mem_cons_of_mem x hm))]
    rfl

theorem splitFirst_append {c : Char} {a : Str} (b : Str) (h : c ∉ a) :
    splitFirst c (a ++ c :: b) = some (a, b) := by
  induction a with
  | nil => simp [splitFirst]
  | cons x xs ih =>
    rw [List.cons_append, splitFirst]
    have hx : ¬ (x == c) = true := by
      simp only [beq_iff_eq]
      intro hc
      exact h (hc ▸ List.mem_cons_self x xs)
    rw [if_neg hx, ih (fun hm => h (List.mem_cons_of_mem x hm))]
    rfl

theorem divideOn_no {c : Char} {s : Str} (h : c ∉ s) : divideOn c s = (s, []) := by
  rw [divideOn, splitFirst_not_mem h]

theorem divideOn_first {c : Char} {a : Str} (b : Str) (h : c ∉ a) :
    divideOn c (a ++ c :: b) = (a, b) := by
  rw [divideOn, splitFirst_append b h]

theorem jsSplit_no {c : Char} {s : Str} (h : c ∉ s) : jsSplit c s = [s] := by
  induction s with
  | nil => rfl
  | cons x xs ih =>
    rw [jsSplit]
    have hx : ¬ (x == c) = true := by
      simp only [beq_iff_eq]
      intro hc
      exact h (hc ▸ List.mem_cons_self x xs)
    simp only [if_neg hx, ih (fun hm => h (List.mem_cons_of_mem x hm))]

theorem jsSplit_head {c : Char} {a : Str} (b : Str) (h : c ∉ a) :
    jsSplit c (a ++ c :: b) = a :: jsSplit c b := by
  induction a with
  | nil =>
    rw [List.nil_append, jsSplit]
    simp
  | cons x xs ih =>
    rw [List.cons_append, jsSplit]
    have hx : ¬ (x == c) = true := by
      simp only [beq_iff_eq]
      intro hc
      exact h (hc ▸ List.mem_cons_self x xs)
    rw [if_neg hx, ih (fun hm => h (List.mem_cons_of_mem x hm))]

theorem joinDot_cons {s : Str} {rest : List Str} (h : rest ≠ []) :
    joinDot (s :: rest) = s ++ '.' :: joinDot rest := by
  cases rest with
  | nil => exact absurd rfl h
  | cons t ts => rfl

theorem joinDot_snoc {l : List Str} (x : Str) (h : l ≠ []) :
    joinDot (l ++ [x]) = joinDot l ++ '.' :: x := by
  induction l with
  | nil => exact absurd rfl h
  | cons s rest ih =>
    cases hr : rest with
    | nil => simp [joinDot]
    | cons t ts =>
      rw [List.cons_append, joinDot_cons (by simp [hr]), joinDot_cons (by simp [hr]), ← hr,
        ih (by simp [hr])]
      simp

theorem not_mem_joinDot {c : Char} {segs : List Str} (hc : c ≠ '.')
    (h : ∀ sg ∈ segs, c ∉ sg) : c ∉ joinDot segs := by
  induction segs with
  | nil => simp [joinDot]
  | cons s rest ih =>
    cases hr : rest with
    | nil =>
      simp only [joinDot]
      exact h s (List.mem_cons_self s rest)
    | cons t ts =>
      rw [joinDot_cons (by simp [hr])]
      intro hm
      rcases List.mem_append.mp hm with h1 | h2
      · exact h s (List.mem_cons_self s rest) h1
      · rcases List.mem_cons.mp h2 with h3 | h4
        · exact hc h3
        · exact (hr ▸ ih (fun sg hsg => h sg (List.mem_cons_of_mem s (hr ▸ hsg)))) h4

theorem jsSplit_joinDot {segs : List Str} (hne : segs ≠ [])
    (h : ∀ sg ∈ segs, '.' ∉ sg) : jsSplit '.' (joinDot segs) = segs := by
  induction segs with
  | nil => exact absurd rfl hne
  | cons s rest ih =>
    cases hr : rest with
    | nil => simp only [joinDot]; exact jsSplit_no (h s (List.mem_cons_self s rest))
    | cons t ts =>
      subst hr
      rw [joinDot_cons (by simp), jsSplit_head _ (h s (List.mem_cons_self s _))]
      rw [ih (by simp) (fun sg hsg => h sg (List.mem_cons_of_mem s hsg))]

theorem stripDotHash_id {s : Str} (h : '.' ∉ s) : stripDotHash s = s := by
  induction s with
  | nil => rfl
  | cons x xs ih =>
    have hx : x ≠ '.' := fun hc => h (hc ▸ List.mem_cons_self x xs)
    rw [stripDotHash.eq_def]
    split
    · next heq => simp at heq
    · next r heq =>
      exfalso
      injection heq with h1 h2
      exact hx h1
    · next y rest heq =>
      injection heq with h1 h2
      rw [← h1, ← h2, ih (fun hm => h (List.mem_cons_of_mem x hm))]

theorem joinDot_ne_nil {segs : List Str} (hne : segs ≠ [])
    (h : ∀ sg ∈ segs, sg ≠ []) : joinDot segs ≠ [] := by
  cases segs with
  | nil => exact absurd rfl hne
  | cons s rest =>
    cases hr : rest with
    | nil => simp only [joinDot]; exact h s (List.mem_cons_self s rest)
    | cons t ts =>
      rw [joinDot_cons (by simp [hr])]
      intro hcon
      have := List.append_eq_nil.mp hcon
      exact absurd this.2 (by simp)

theorem mem_subNodes_self (e : ENode) : e ∈ subNodes e := by
  cases e with
  | mk k i n sr ms => rw [subNodes]; exact List.mem_cons_self _ _

theorem mem_subNodesL_of_mem {e : ENode} {l : List ENode} (h : e ∈ l) : e ∈ subNodesL l := by
  induction l with
  | nil => simp at h
  | cons x xs ih =>
    rw [subNodesL]
    rcases List.mem_cons.mp h with h1 | h2
    · exact List.mem_append_left _ (h1 ▸ mem_subNodes_self e)
    · exact List.mem_append_right _ (ih h2)

mutual
theorem subNodes_members_closed : ∀ (r : ENode) (p : ENode), p ∈ subNodes r →
    ∀ c ∈ p.members, c ∈ subNodes r
  | .mk k i n sr ms, p, hp, c, hc => by
    rw [subNodes] at hp ⊢
    rcases List.mem_cons.mp hp with h1 | h2
    · subst h1
      exact List.mem_cons_of_mem _ (mem_subNodesL_of_mem hc)
    · exact List.mem_cons_of_mem _ (subNodesL_members_closed ms p h2 c hc)
theorem subNodesL_members_closed : ∀ (l : List ENode) (p : ENode), p ∈ subNodesL l →
    ∀ c ∈ p.members, c ∈ subNodesL l
  | [], p, hp, c, hc => by simp [subNodesL] at hp
  | x :: xs, p, hp, c, hc => by
    rw [subNodesL] at hp ⊢
    rcases List.mem_append.mp hp with h1 | h2
    · exact List.mem_append_left _ (subNodes_members_closed x p h1 c hc)
    · exact List.mem_append_right _ (subNodesL_members_closed xs p h2 c hc)
end

theorem chain_mem_allNodes {env : List ENode} {ps : List ENode} {e : ENode}
    (h : ChainTo env ps e) : e ∈ allNodes env ∧ ∀ p ∈ ps, p ∈ allNodes env := by
  induction h with
  | top hm => exact ⟨mem_subNodesL_of_mem hm, by simp⟩
  | step hc hm ih =>
    refine ⟨subNodesL_members_closed _ _ ih.1 _ hm, ?_⟩
    intro p hp
    rcases List.mem_cons.mp hp with h1 | h2
    · exact h1 ▸ ih.1
    · exact ih.2 p h2

theorem chain_outer {env : List ENode} {ps : List ENode} {e : ENode}
    (h : ChainTo env ps e) :
    (ps = [] → e ∈ env) ∧ (∀ r, ps.getLast? = some r → r ∈ env) := by
  induction h with
  | top hm => exact ⟨fun _ => hm, by simp⟩
  | @step ps p e hc hm ih =>
    constructor
    · intro hcon; simp at hcon
    · intro r hr
      cases hps : ps with
      | nil =>
        rw [hps] at hr
        simp at hr
        exact hr ▸ ih.1 hps
      | cons q qs =>
        rw [hps] at hr
        rw [List.getLast?_cons_cons] at hr
        exact ih.2 r (hps ▸ hr)

theorem find?_by_name {l : List ENode} {e : ENode} {nm : Str}
    (hnd : (l.filterMap ENode.name).Nodup) (hmem : e ∈ l) (hname : e.name = some nm) :
    l.find? (fun c => c.name == some nm) = some e := by
  induction l with
  | nil => simp at hmem
  | cons x xs ih =>
    rcases List.mem_cons.mp hmem with h1 | h2
    · subst h1
      rw [List.find?_cons_of_pos _ (by simp [hname])]
    · by_cases hx : x.name = some nm
      · exfalso
        rw [List.filterMap_cons, hx] at hnd
        have hin : nm ∈ xs.filterMap ENode.name := List.mem_filterMap.mpr ⟨e, h2, hname⟩
        exact (List.nodup_cons.mp hnd).1 hin
      · rw [List.find?_cons_of_neg _ (by simp [hx])]
        apply ih _ h2
        rw [List.filterMap_cons] at hnd
        cases hx2 : x.name with
        | none => rw [hx2] at hnd; exact hnd
        | some v => rw [hx2] at hnd; exact (List.nodup_cons.mp hnd).2

theorem stepDown_finds {p e : ENode} {nm : Str}
    (hnd : (p.members.filterMap ENode.name).Nodup) (hmem : e ∈ p.members)
    (hname : e.name = some nm) : stepDown p nm = some e := by
  rw [stepDown]
  have h := find?_by_name hnd hmem hname
  rw [show (fun c => isEntityNode c && c.name == some nm) = (fun c => ENode.name c == some nm)
    from by funext c; simp [isEntityNode]]
  exact h

theorem resolvePath_append (r : ENode) (a b : List Str) :
    resolvePath r (a ++ b) = (resolvePath r a).bind (fun x => resolvePath x b) := by
  induction a generalizing r with
  | nil => simp [resolvePath]
  | cons s rest ih =>
    rw [List.cons_append, resolvePath]
    cases hs : stepDown r s with
    | none => simp [resolvePath, hs]
    | some nxt => simp [resolvePath, hs, ih nxt]

theorem find?_by_id {l : List ENode} {e : ENode}
    (hnd : (l.map ENode.id).Nodup) (hmem : e ∈ l) :
    l.find? (fun n => n.id == e.id) = some e := by
  induction l with
  | nil => simp at hmem
  | cons x xs ih =>
    rcases List.mem_cons.mp hmem with h1 | h2
    · subst h1
      rw [List.find?_cons_of_pos _ (by simp)]
    · by_cases hx : x.id = e.id
      · exfalso
        rw [List.map_cons] at hnd
        have hin : e.id ∈ xs.map ENode.id := List.mem_map.mpr ⟨e, h2, rfl⟩
        exact (List.nodup_cons.mp hnd).1 (hx ▸ hin)
      · rw [List.find?_cons_of_neg _ (by simp [hx])]
        exact ih (List.nodup_cons.mp (List.map_cons _ x xs ▸ hnd)).2 h2

theorem getNodeById_finds {env : List ENode} {e : ENode}
    (hnd : ((allNodes env).map ENode.id).Nodup) (hmem : e ∈ allNodes env) :
    getNodeById env e.id = some e :=
  find?_by_id hnd hmem

theorem goodStr_spec {s : Str} (h : goodStr s = true) : s ≠ [] ∧ '.' ∉ s ∧ '#' ∉ s := by
  rw [goodStr] at h
  simp only [Bool.and_eq_true, Bool.not_eq_true'] at h
  refine ⟨?_, ?_, ?_⟩
  · intro hc; rw [hc] at h; simp at h
  · intro hc
    have := h.1.2
    rw [List.contains, List.elem_eq_mem, decide_eq_true hc] at this
    simp at this
  · intro hc
    have := h.2
    rw [List.contains, List.elem_eq_mem, decide_eq_true hc] at this
    simp at this

theorem nodeOk_spec {n : ENode} (h : nodeOk n = true) :
    goodStr n.id = true ∧ (∀ nm, n.name = some nm → goodStr nm = true) ∧
    (n.name = none → n.kind = EKind.singleton) ∧
    (n.members.filterMap ENode.name).Nodup := by
  rw [nodeOk] at h
  simp only [Bool.and_eq_true, decide_eq_true_eq] at h
  refine ⟨h.1.1, ?_, ?_, h.2⟩
  · intro nm hnm
    have := h.1.2
    rw [hnm] at this
    exact this
  · intro hnone
    have := h.1.2
    rw [hnone] at this
    simpa using this

theorem entLabel_named {env : List ENode} {e : ENode} {nm : Str}
    (hname : e.name = some nm) (hdot : '.' ∉ nm) : entLabel env e = nm := by
  rw [entLabel, hname]
  cases hk : e.kind <;> simp [stripDotHash_id hdot]

theorem entLabelSimple_named {e : ENode} {nm : Str}
    (hname : e.name = some nm) (hdot : '.' ∉ nm) : entLabelSimple e = nm := by
  cases e with
  | mk k i n sr ms =>
    simp only [ENode.name] at hname
    subst hname
    rw [entLabelSimple]
    split <;> simp [stripDotHash_id hdot]

theorem fqn_join (env : List ENode) :
    ∀ (ps : List ENode) (e : ENode), (∀ p ∈ ps, p.kind = EKind.pkg) →
    fullyQualifiedName env ps e =
      joinDot ((ps.map (fun p => entLabel env p)).reverse ++ [entLabel env e]) := by
  intro ps
  induction ps with
  | nil => intro e _; simp [fullyQualifiedName, joinDot]
  | cons p ps ih =>
    intro e hk
    have hp : p.kind = EKind.pkg := hk p (List.mem_cons_self p ps)
    rw [fullyQualifiedName, if_pos (by simp [hp])]
    rw [ih p (fun q hq => hk q (List.mem_cons_of_mem p hq))]
    rw [List.map_cons, List.reverse_cons]
    rw [show (ps.map (fun q => entLabel env q)).reverse ++ [entLabel env p] ++ [entLabel env e] =
      ((ps.map (fun q => entLabel env q)).reverse ++ [entLabel env p]) ++ [entLabel env e] from by
        simp]
    rw [joinDot_snoc (entLabel env e) (by simp)]

theorem fqnChainSimple_join :
    ∀ (ps : List ENode) (e : ENode), (∀ p ∈ ps, p.kind = EKind.pkg) →
    fqnChainSimple ps e =
      joinDot ((ps.map entLabelSimple).reverse ++ [entLabelSimple e]) := by
  intro ps
  induction ps with
  | nil => intro e _; simp [fqnChainSimple, joinDot]
  | cons p ps ih =>
    intro e hk
    have hp : p.kind = EKind.pkg := hk p (List.mem_cons_self p ps)
    rw [fqnChainSimple, if_pos (by simp [hp])]
    rw [ih p (fun q hq => hk q (List.mem_cons_of_mem p hq))]
    rw [List.map_cons, List.reverse_cons]
    rw [show (ps.map entLabelSimple).reverse ++ [entLabelSimple p] ++ [entLabelSimple e] =
      ((ps.map entLabelSimple).reverse ++ [entLabelSimple p]) ++ [entLabelSimple e] from by simp]
    rw [joinDot_snoc (entLabelSimple e) (by simp)]

theorem revMap_last {α β : Type} {ps : List α} {r : α} (L : α → β)
    (h : ps.getLast? = some r) :
    (ps.map L).reverse = L r :: (ps.dropLast.map L).reverse := by
  have hne : ps ≠ [] := by
    intro hc; rw [hc] at h; simp at h
  have hsplit : ps.dropLast ++ [ps.getLast hne] = ps := List.dropLast_append_getLast hne
  have hr : ps.getLast hne = r := by
    have := List.getLast?_eq_getLast ps hne
    rw [this] at h
    exact Option.some.inj h
  rw [← hsplit, hr]
  simp

theorem chain_resolve {env : List ENode} (hwf : envWf env) :
    ∀ {ps : List ENode} {e : ENode}, ChainTo env ps e →
    (∀ p ∈ ps, p.kind = EKind.pkg) →
    ∀ {nm : Str}, e.name = some nm →
    (ps = [] ∧ e ∈ env) ∨
    (∃ r, ps.getLast? = some r ∧ r ∈ env ∧ r.kind = EKind.pkg ∧
      resolvePath r ((ps.dropLast.map (fun p => entLabel env p)).reverse ++ [entLabel env e]) =
        some e) := by
  intro ps e hch
  induction hch with
  | top hm => intro _ _ _; exact Or.inl ⟨rfl, hm⟩
  | @step ps₀ p e hc hm ih =>
    intro hk nm hname
    have hp : p.kind = EKind.pkg := hk p (List.mem_cons_self p ps₀)
    have hpAll : p ∈ allNodes env := (chain_mem_allNodes hc).1
    have hpOk := nodeOk_spec (hwf.2.1 p hpAll)
    have heAll : e ∈ allNodes env := subNodesL_members_closed env p hpAll e hm
    have heOk := nodeOk_spec (hwf.2.1 e heAll)
    have hnmGood := goodStr_spec (heOk.2.1 nm hname)
    have hlabel : entLabel env e = nm := entLabel_named hname hnmGood.2.1
    have hpname : ∃ np, p.name = some np := by
      cases hpn : p.name with
      | some np => exact ⟨np, rfl⟩
      | none =>
        exfalso
        have := hpOk.2.2.1 hpn
        rw [hp] at this
        simp at this
    rcases hpname with ⟨np, hpn⟩
    have hstep : stepDown p nm = some e := stepDown_finds hpOk.2.2.2 hm hname
    have hresLast : resolvePath p [entLabel env e] = some e := by
      rw [resolvePath, hlabel, hstep]
      rfl
    rcases ih (fun q hq => hk q (List.mem_cons_of_mem p hq)) hpn with ⟨hnil, hpenv⟩ | hfound
    · subst hnil
      right
      refine ⟨p, rfl, hpenv, hp, ?_⟩
      simpa using hresLast
    · rcases hfound with ⟨r, hlast₀, hrenv, hrpkg, hres₀⟩
      have hps₀ne : ps₀ ≠ [] := by
        intro hc2; rw [hc2] at hlast₀; simp at hlast₀
      obtain ⟨q, qs, rfl⟩ := List.exists_cons_of_ne_nil hps₀ne
      right
      refine ⟨r, ?_, hrenv, hrpkg, ?_⟩
      · rw [List.getLast?_cons_cons]
        exact hlast₀
      · have hdl : (p :: q :: qs).dropLast = p :: (q :: qs).dropLast := rfl
        rw [hdl, List.map_cons, List.reverse_cons]
        rw [show (((q :: qs).dropLast.map (fun x => entLabel env x)).reverse ++
            [entLabel env p]) ++ [entLabel env e] =
            ((q :: qs).dropLast.map (fun x => entLabel env x)).reverse ++
            ([entLabel env p] ++ [entLabel env e]) from by simp]
        rw [show ((q :: qs).dropLast.map (fun x => entLabel env x)).reverse ++
            ([entLabel env p] ++ [entLabel env e]) =
            (((q :: qs).dropLast.map (fun x => entLabel env x)).reverse ++ [entLabel env p]) ++
            [entLabel env e] from by simp]
        rw [resolvePath_append, hres₀]
        simpa using hresLast

theorem mem_of_getLast {α : Type} {l : List α} {a : α} (h : l.getLast? = some a) : a ∈ l := by
  have hne : l ≠ [] := by intro hc; rw [hc] at h; simp at h
  have h2 := List.getLast?_eq_getLast l hne
  rw [h2] at h
  exact (Option.some.inj h) ▸ List.getLast_mem hne

mutual
/-- Soundness of the ancestor-chain search: a hit found below a node
that sits under a valid ancestor chain again carries a valid ancestor
chain. -/
theorem findChainN_sound : ∀ (env : List ENode) (tid : Str) (chain : List ENode) (n : ENode),
    ChainTo env chain n → ∀ (ps : List ENode) (t : ENode),
    findChainN tid chain n = some (ps, t) → ChainTo env ps t
  | env, tid, chain, .mk k i nm sr ms, hch, ps, t, h => by
    rw [findChainN] at h
    split at h
    · injection h with h1
      injection h1 with hps ht
      exact hps ▸ ht ▸ hch
    · exact findChainL_sound env tid (.mk k i nm sr ms :: chain) ms
        (fun m hm => ChainTo.step hch hm) ps t h
theorem findChainL_sound : ∀ (env : List ENode) (tid : Str) (chain : List ENode)
    (l : List ENode), (∀ m ∈ l, ChainTo env chain m) → ∀ (ps : List ENode) (t : ENode),
    findChainL tid chain l = some (ps, t) → ChainTo env ps t
  | env, tid, chain, [], _, ps, t, h => by rw [findChainL] at h; exact absurd h (by simp)
  | env, tid, chain, n :: rest, hall, ps, t, h => by
    rw [findChainL] at h
    split at h
    · next r heq =>
      injection h with h1
      exact findChainN_sound env tid chain n (hall n (List.mem_cons_self n rest)) ps t
        (h1 ▸ heq)
    · exact findChainL_sound env tid chain rest
        (fun m hm => hall m (List.mem_cons_of_mem n hm)) ps t h
end

theorem findChain_sound {env : List ENode} {tid : Str} {ps : List ENode} {t : ENode}
    (h : findChain env tid = some (ps, t)) : ChainTo env ps t :=
  findChainL_sound env tid [] env (fun _ hm => ChainTo.top hm) ps t h

theorem named_good {env : List ENode} (hwf : envWf env) {q : ENode} {nm : Str}
    (hq : q ∈ allNodes env) (hname : q.name = some nm) :
    entLabel env q = nm ∧ entLabelSimple q = nm ∧ nm ≠ [] ∧ '.' ∉ nm ∧ '#' ∉ nm := by
  have hOk := nodeOk_spec (hwf.2.1 q hq)
  have hg := goodStr_spec (hOk.2.1 nm hname)
  exact ⟨entLabel_named hname hg.2.1, entLabelSimple_named hname hg.2.1,
    hg.1, hg.2.1, hg.2.2⟩

theorem pkg_named {env : List ENode} (hwf : envWf env) {q : ENode}
    (hq : q ∈ allNodes env) (hk : q.kind = EKind.pkg) : ∃ nm, q.name = some nm := by
  have hOk := nodeOk_spec (hwf.2.1 q hq)
  cases hx : q.name with
  | some x => exact ⟨x, rfl⟩
  | none => exact absurd (hOk.2.2.1 hx) (by rw [hk]; simp)

theorem pkgMap_good {env : List ENode} (hwf : envWf env) {l : List ENode}
    (hall : ∀ p ∈ l, p ∈ allNodes env) (hk : ∀ p ∈ l, p.kind = EKind.pkg) :
    ∀ sg ∈ l.map (fun p => entLabel env p), sg ≠ [] ∧ '.' ∉ sg ∧ '#' ∉ sg := by
  intro sg hsg
  obtain ⟨q, hq, rfl⟩ := List.mem_map.mp hsg
  obtain ⟨nm, hname⟩ := pkg_named hwf (hall q hq) (hk q hq)
  obtain ⟨h1, _, h3, h4, h5⟩ := named_good hwf (hall q hq) hname
  rw [h1]
  exact ⟨h3, h4, h5⟩

theorem pkgMapSimple_good {env : List ENode} (hwf : envWf env) {l : List ENode}
    (hall : ∀ p ∈ l, p ∈ allNodes env) (hk : ∀ p ∈ l, p.kind = EKind.pkg) :
    ∀ sg ∈ l.map entLabelSimple, sg ≠ [] ∧ '.' ∉ sg ∧ '#' ∉ sg := by
  intro sg hsg
  obtain ⟨q, hq, rfl⟩ := List.mem_map.mp hsg
  obtain ⟨nm, hname⟩ := pkg_named hwf (hall q hq) (hk q hq)
  obtain ⟨_, h2, h3, h4, h5⟩ := named_good hwf (hall q hq) hname
  rw [h2]
  exact ⟨h3, h4, h5⟩

theorem joinDot_snoc_append (segs : List Str) (S suf : Str) :
    joinDot (segs ++ [S ++ suf]) = joinDot (segs ++ [S]) ++ suf := by
  cases segs with
  | nil => simp [joinDot]
  | cons q qs =>
    rw [joinDot_snoc (S ++ suf) (by simp), joinDot_snoc S (by simp)]
    simp

theorem resolveTop {env : List ENode} {e : ENode} {nm : Str}
    (hdot : '.' ∉ nm)
    (hfind : env.find? (fun c => c.name == some nm) = some e) :
    getNodeByFQN env nm = some e := by
  simp only [getNodeByFQN, divideOn_no hdot]
  rw [hfind]
  rfl

theorem resolveSharp {env : List ENode} {root e : ENode} {nm A : Str}
    (hdot : '.' ∉ nm)
    (hfind : env.find? (fun c => c.name == some nm) = some root)
    (hpkg : root.kind = EKind.pkg)
    (hA : '#' ∉ A)
    (hidne : e.id ≠ []) (hidsharp : '#' ∉ e.id)
    (hnd : ((allNodes env).map ENode.id).Nodup) (hmem : e ∈ allNodes env) :
    getNodeByFQN env (nm ++ '.' :: (A ++ '#' :: e.id)) = some e := by
  simp only [getNodeByFQN, divideOn_first (A ++ '#' :: e.id) hdot]
  rw [hfind]
  have hq : (A ++ '#' :: e.id).isEmpty = false := by cases A <;> rfl
  show (if (A ++ '#' :: e.id).isEmpty = true then some root
    else getNodeByQN env root (A ++ '#' :: e.id)) = some e
  rw [if_neg (by simp [hq])]
  have h1 : jsSplit '#' (A ++ '#' :: e.id) = A :: [e.id] := by
    rw [jsSplit_head _ hA, jsSplit_no hidsharp]
  rw [getNodeByQN, if_pos (by simp [hpkg]), h1]
  have hid : e.id.isEmpty = false := by
    cases h : e.id with
    | nil => exact absurd h hidne
    | cons a as => rfl
  simp only [List.get?]
  rw [if_neg (by simp [hid])]
  exact getNodeById_finds hnd hmem

theorem anchored_label {env : List ENode} (hwf : envWf env) {e : ENode}
    (heAll : e ∈ allNodes env) (hnone : e.name = none)
    {sid : Str} {psT : List ENode} {t : ENode}
    (hsup : e.superRef = some sid) (hfc : findChain env sid = some (psT, t))
    (hTne : psT ≠ []) (hTpkg : ∀ p ∈ psT, p.kind = EKind.pkg)
    (hTnm : ∃ x, t.name = some x) :
    ∃ S, entLabel env e = S ++ '#' :: e.id ∧ '#' ∉ S ∧
      ∃ rT nmrT A, S = nmrT ++ '.' :: A ∧ '.' ∉ nmrT ∧ '#' ∉ A ∧
        env.find? (fun c => c.name == some nmrT) = some rT ∧ rT.kind = EKind.pkg := by
  have heOk := nodeOk_spec (hwf.2.1 e heAll)
  have hkSing : e.kind = EKind.singleton := heOk.2.2.1 hnone
  have hchT : ChainTo env psT t := findChain_sound hfc
  have htAll : t ∈ allNodes env := (chain_mem_allNodes hchT).1
  have hTall : ∀ p ∈ psT, p ∈ allNodes env := (chain_mem_allNodes hchT).2
  obtain ⟨nmt, htname⟩ := hTnm
  have htgood := named_good hwf htAll htname
  have hlabE : entLabel env e = superFqnOf env sid ++ '#' :: e.id := by
    cases e with
    | mk k i n sr ms =>
      simp only [ENode.kind] at hkSing
      simp only [ENode.name] at hnone
      simp only [ENode.superRef] at hsup
      subst hkSing
      subst hnone
      subst hsup
      rfl
  simp only [superFqnOf, hfc] at hlabE
  refine ⟨fqnChainSimple psT t, hlabE, ?_, ?_⟩
  · rw [fqnChainSimple_join psT t hTpkg]
    apply not_mem_joinDot (by decide)
    intro sg hsg
    rcases List.mem_append.mp hsg with h1 | h2
    · rw [List.mem_reverse] at h1
      exact (pkgMapSimple_good hwf hTall hTpkg sg h1).2.2
    · rw [List.mem_singleton] at h2
      subst h2
      rw [htgood.2.1]
      exact htgood.2.2.2.2
  · obtain ⟨q, qs, rfl⟩ := List.exists_cons_of_ne_nil hTne
    have hne2 : (q :: qs : List ENode) ≠ [] := by simp
    have hlastT : (q :: qs).getLast? = some ((q :: qs).getLast hne2) :=
      List.getLast?_eq_getLast _ _
    have hrTmem : (q :: qs).getLast hne2 ∈ (q :: qs) := List.getLast_mem hne2
    have hrTenv : (q :: qs).getLast hne2 ∈ env := (chain_outer hchT).2 _ hlastT
    have hrTpkg := hTpkg _ hrTmem
    obtain ⟨nmrT, hrTname⟩ := pkg_named hwf (hTall _ hrTmem) hrTpkg
    have hrTgood := named_good hwf (hTall _ hrTmem) hrTname
    refine ⟨(q :: qs).getLast hne2, nmrT,
      joinDot (((q :: qs).dropLast.map entLabelSimple).reverse ++ [entLabelSimple t]),
      ?_, hrTgood.2.2.2.1, ?_, find?_by_name hwf.1 hrTenv hrTname, hrTpkg⟩
    · rw [fqnChainSimple_join _ t hTpkg, revMap_last entLabelSimple hlastT,
        List.cons_append, joinDot_cons (by simp), hrTgood.2.1]
    · apply not_mem_joinDot (by decide)
      intro sg hsg
      rcases List.mem_append.mp hsg with h1 | h2
      · rw [List.mem_reverse] at h1
        exact (pkgMapSimple_good hwf
          (fun p hp => hTall p (List.dropLast_subset _ hp))
          (fun p hp => hTpkg p (List.dropLast_subset _ hp)) sg h1).2.2
      · rw [List.mem_singleton] at h2
        subst h2
        rw [htgood.2.1]
        exact htgood.2.2.2.2

/-- C7 (corrected): the amended FQN round-trip.  In a well-formed
linked environment, getNodeByFQN(e.fullyQualifiedName()) returns e
itself for every entity e all of whose ancestors are Packages and that
carries a name, and for every unnamed Singleton whose superclass
target sits under a non-empty all-Package ancestor chain (the
supermoduleFQN#id form) and whose own chain is all-Package or
contributes nothing to the name.  The claim as stated (every Entity)
fails for entities under a non-Package parent. -/
theorem fqn_roundtrip {env : List ENode} (hwf : envWf env)
    {ps : List ENode} {e : ENode} (hch : ChainTo env ps e)
    (hcase : ((∀ p ∈ ps, p.kind = EKind.pkg) ∧ ∃ nm, e.name = some nm) ∨
      (e.name = none ∧ singletonAnchored env ps e)) :
    getNodeByFQN env (fullyQualifiedName env ps e) = some e := by
  have heAll : e ∈ allNodes env := (chain_mem_allNodes hch).1
  have hpsAll : ∀ p ∈ ps, p ∈ allNodes env := (chain_mem_allNodes hch).2
  rcases hcase with ⟨hkpkg, nm, hname⟩ | ⟨hnone, hanch⟩
  · have hegood := named_good hwf heAll hname
    rcases chain_resolve hwf hch hkpkg hname with ⟨hnil, henv⟩ | ⟨r, hlast, hrenv, hrpkg, hres⟩
    · subst hnil
      show getNodeByFQN env (entLabel env e) = some e
      rw [hegood.1]
      exact resolveTop hegood.2.2.2.1 (find?_by_name hwf.1 henv hname)
    · have hrmem : r ∈ ps := mem_of_getLast hlast
      obtain ⟨nmr, hrname⟩ := pkg_named hwf (hpsAll r hrmem) (hkpkg r hrmem)
      have hrgood := named_good hwf (hpsAll r hrmem) hrname
      have hsegs : ∀ sg ∈ (ps.dropLast.map (fun p => entLabel env p)).reverse ++
          [entLabel env e], sg ≠ [] ∧ '.' ∉ sg ∧ '#' ∉ sg := by
        intro sg hsg
        rcases List.mem_append.mp hsg with h1 | h2
        · rw [List.mem_reverse] at h1
          exact pkgMap_good hwf
            (fun p hp => hpsAll p (List.dropLast_subset _ hp))
            (fun p hp => hkpkg p (List.dropLast_subset _ hp)) sg h1
        · rw [List.mem_singleton] at h2
          subst h2
          rw [hegood.1]
          exact ⟨hegood.2.2.1, hegood.2.2.2.1, hegood.2.2.2.2⟩
      rw [fqn_join env ps e hkpkg, revMap_last (fun p => entLabel env p) hlast,
        List.cons_append, joinDot_cons (by simp), hrgood.1]
      simp only [getNodeByFQN, divideOn_first _ hrgood.2.2.2.1]
      rw [find?_by_name hwf.1 hrenv hrname]
      have hqne : (joinDot ((ps.dropLast.map (fun p => entLabel env p)).reverse ++
          [entLabel env e])).isEmpty = false :=
        List.isEmpty_eq_false.mpr
          (joinDot_ne_nil (by simp) (fun sg hsg => (hsegs sg hsg).1))
      show (if (joinDot ((ps.dropLast.map (fun p => entLabel env p)).reverse ++
          [entLabel env e])).isEmpty = true then some r
        else getNodeByQN env r (joinDot ((ps.dropLast.map (fun p => entLabel env p)).reverse ++
          [entLabel env e]))) = some e
      rw [if_neg (by simp only [hqne]; simp)]
      rw [getNodeByQN, if_pos (by simp [hrpkg]),
        jsSplit_no (not_mem_joinDot (by decide) (fun sg hsg => (hsegs sg hsg).2.2))]
      show resolvePath r (jsSplit '.' (joinDot
        ((ps.dropLast.map (fun p => entLabel env p)).reverse ++ [entLabel env e]))) = some e
      rw [jsSplit_joinDot (by simp) (fun sg hsg => (hsegs sg hsg).2.1)]
      exact hres
  · obtain ⟨⟨sid, psT, t, hsup, hfc, hTne, hTpkg, hTnm⟩, hdisj⟩ := hanch
    have heOk := nodeOk_spec (hwf.2.1 e heAll)
    have hidg := goodStr_spec heOk.1
    obtain ⟨S, hS, hSsharp, rT, nmrT, A, hSdec, hnmdot, hAsharp, hfindT, hrTpkg⟩ :=
      anchored_label hwf heAll hnone hsup hfc hTne hTpkg hTnm
    have hbase : getNodeByFQN env (entLabel env e) = some e := by
      rw [hS, hSdec, List.append_assoc, List.cons_append]
      exact resolveSharp hnmdot hfindT hrTpkg hAsharp hidg.1 hidg.2.2 hwf.2.2 heAll
    rcases hdisj with hkpkg | hfe
    · cases ps with
      | nil => exact hbase
      | cons p0 ps0 =>
        have hne3 : (p0 :: ps0 : List ENode) ≠ [] := by simp
        have hlast : (p0 :: ps0).getLast? = some ((p0 :: ps0).getLast hne3) :=
          List.getLast?_eq_getLast _ _
        have hrenv : (p0 :: ps0).getLast hne3 ∈ env := (chain_outer hch).2 _ hlast
        have hrmem : (p0 :: ps0).getLast hne3 ∈ (p0 :: ps0) := List.getLast_mem hne3
        have hrpkg := hkpkg _ hrmem
        obtain ⟨nmr, hrname⟩ := pkg_named hwf (hpsAll _ hrmem) hrpkg
        have hrgood := named_good hwf (hpsAll _ hrmem) hrname
        rw [fqn_join env (p0 :: ps0) e hkpkg,
          revMap_last (fun p => entLabel env p) hlast, List.cons_append,
          joinDot_cons (by simp), hrgood.1, hS, joinDot_snoc_append]
        refine resolveSharp hrgood.2.2.2.1 (find?_by_name hwf.1 hrenv hrname) hrpkg
          ?_ hidg.1 hidg.2.2 hwf.2.2 heAll
        apply not_mem_joinDot (by decide)
        intro sg hsg
        rcases List.mem_append.mp hsg with h1 | h2
        · rw [List.mem_reverse] at h1
          exact (pkgMap_good hwf
            (fun p hp => hpsAll p (List.dropLast_subset _ hp))
            (fun p hp => hkpkg p (List.dropLast_subset _ hp)) sg h1).2.2
        · rw [List.mem_singleton] at h2
          subst h2
          exact hSsharp
    · rw [hfe]
      exact hbase

/-- C7 witness: in the concrete environment p { q { class C }, object
extending C }, the round trip holds both for the named class C under
the Package chain q, p (name "p.q.C") and for the unnamed Singleton
(name "p.p.q.C#4", resolved through the #id branch). -/
theorem fqn_roundtrip_witness :
    getNodeByFQN envW (fullyQualifiedName envW [qNodeW, pNodeW] cNodeW) = some cNodeW ∧
    getNodeByFQN envW (fullyQualifiedName envW [pNodeW] sNodeW) = some sNodeW := by
  constructor
  · exact fqn_roundtrip ⟨by decide, by decide, by decide⟩
      (ChainTo.step (ChainTo.step (ChainTo.top (List.mem_singleton.mpr rfl))
        (List.mem_cons_self qNodeW [sNodeW])) (List.mem_singleton.mpr rfl))
      (Or.inl ⟨by
        intro p hp
        rcases List.mem_cons.mp hp with h1 | h2
        · rw [h1]; rfl
        · rw [List.mem_singleton.mp h2]; rfl, ⟨['C'], rfl⟩⟩)
  · exact fqn_roundtrip ⟨by decide, by decide, by decide⟩
      (ChainTo.step (ChainTo.top (List.mem_singleton.mpr rfl))
        (List.mem_cons_of_mem qNodeW (List.mem_singleton.mpr rfl)))
      (Or.inr ⟨rfl, ⟨⟨['3'], [qNodeW, pNodeW], cNodeW, rfl, rfl, by simp, by
        intro p hp
        rcases List.mem_cons.mp hp with h1 | h2
        · rw [h1]; rfl
        · rw [List.mem_singleton.mp h2]; rfl, ⟨['C'], rfl⟩⟩,
        Or.inl (by
          intro p hp
          rw [List.mem_singleton.mp hp]; rfl)⟩⟩)

/-- C7 counterexample to the claim as stated: in the well-formed
environment package p { describe d { test t } }, the Test's fully
qualified name is its bare label "t" because its parent is a Describe,
not a Package, and getNodeByFQN finds no top-level entity named "t",
so the round trip fails for this Entity. -/
theorem fqn_roundtrip_cex :
    envWf envCex ∧
    ChainTo envCex [dNodeC, pNodeC] tNodeC ∧
    getNodeByFQN envCex (fullyQualifiedName envCex [dNodeC, pNodeC] tNodeC) = none := by
  refine ⟨⟨by decide, by decide, by decide⟩, ?_, rfl⟩
  exact ChainTo.step (ChainTo.step (ChainTo.top (List.mem_singleton.mpr rfl))
    (List.mem_singleton.mpr rfl)) (List.mem_singleton.mpr rfl)
